import Mathlib

/-!
Verification development for the APML core of the `pfu` repository
(`src/libabbs/src/apml/`): the lossless syntax tree (LST), its parser and
serializer, the AST emitter, the evaluator and the bash-pattern compiler.

Strings are modelled as `List Char` (UTF-8 text; byte counts are recovered
through `Char.utf8Size`, matching Rust's `str::len` and byte slicing).
-/

set_option maxHeartbeats 1000000

namespace Apml

/-- Character list standing for a Rust string slice. -/
abbrev Str := List Char

/-- Equality of `Result`-like values is decidable componentwise. -/
instance instDecEqExcept {ε α : Type} [DecidableEq ε] [DecidableEq α] :
    DecidableEq (Except ε α) := fun x y =>
  match x, y with
  | .ok a, .ok b =>
    if h : a = b then .isTrue (by rw [h]) else .isFalse (by intro hh; cases hh; exact h rfl)
  | .error a, .error b =>
    if h : a = b then .isTrue (by rw [h]) else .isFalse (by intro hh; cases hh; exact h rfl)
  | .ok _, .error _ => .isFalse (by intro hh; cases hh)
  | .error _, .ok _ => .isFalse (by intro hh; cases hh)

/-- UTF-8 byte length of a string, as Rust's `str::len`. -/
def blen : Str → Nat
  | [] => 0
  | c :: cs => c.utf8Size + blen cs

/-- Splits a string at a UTF-8 byte index, as Rust string indexing does;
fails (Rust: panics) when the index is not a character boundary or is
beyond the end. -/
def bsplit : Str → Nat → Option (Str × Str)
  | s, 0 => some ([], s)
  | [], _ + 1 => none
  | c :: cs, n + 1 =>
    if c.utf8Size ≤ n + 1 then
      (bsplit cs (n + 1 - c.utf8Size)).map (fun p => (c :: p.1, p.2))
    else none

/-- Rust `&s[a..b]`: the byte slice between byte offsets `a` and `b`;
`none` models the panic on a reversed range, an out-of-bounds index or a
non-boundary index. -/
def byteSlice (s : Str) (a b : Nat) : Option Str :=
  if a ≤ b then
    match bsplit s a with
    | none => none
    | some (_, rest) =>
      match bsplit rest (b - a) with
      | none => none
      | some (mid, _) => some mid
  else none

/-- Decimal representation of a natural number, as Rust `usize::to_string`. -/
def natToChars (n : Nat) : Str := (Nat.repr n).data

/-- Whitespace trimming as Rust `str::trim`. -/
def trimChars (s : Str) : Str :=
  ((s.dropWhile Char.isWhitespace).reverse.dropWhile Char.isWhitespace).reverse

/-- `isize::from_str`: an optional sign followed by one or more ASCII
digits; anything else fails.  (Overflow is not modelled.) -/
def parseDigits : Str → Option Nat
  | [] => none
  | s =>
    if s.all Char.isDigit then
      some (s.foldl (fun a c => a * 10 + (c.toNat - '0'.toNat)) 0)
    else none

/-- Rust `str::parse::<isize>()`. -/
def parseIsize : Str → Option Int
  | '+' :: rest => (parseDigits rest).map Int.ofNat
  | '-' :: rest => (parseDigits rest).map (fun n => -(Int.ofNat n))
  | s => (parseDigits s).map Int.ofNat

/-- `Vec::join(" ")`. -/
def joinSpace : List Str → Str
  | [] => []
  | [x] => x
  | x :: xs => x ++ ' ' :: joinSpace xs

/-- The buffer loop of `VariableValue::into_array` in `apml/mod.rs`:
split on space, tab and newline, never yielding empty entries. -/
def splitWsAux : Str → Str → List Str
  | cur, [] => if cur = [] then [] else [cur.reverse]
  | cur, c :: cs =>
    if c = ' ' ∨ c = '\t' ∨ c = '\n' then
      if cur = [] then splitWsAux [] cs else cur.reverse :: splitWsAux [] cs
    else splitWsAux (c :: cur) cs

/-! ## Bash patterns (`apml/pattern.rs`) -/

/-- `GlobPart` from `pattern.rs`.  A `BashPattern` is a list of parts and a
`PatternList` is a list of patterns, so the extended-glob group forms hold
a `List (List GlobPart)`. -/
inductive GlobPart where
  | str (s : Str)
  | escaped (c : Char)
  | anyString
  | anyChar
  | range (s : Str)
  | zeroOrOneOf (l : List (List GlobPart))
  | zeroOrMoreOf (l : List (List GlobPart))
  | oneOrMoreOf (l : List (List GlobPart))
  | oneOf (l : List (List GlobPart))
  | notOf (l : List (List GlobPart))

/-- `BashPattern` from `pattern.rs`: one or more glob parts. -/
abbrev BashPattern := List GlobPart

/-- `PatternList` from `pattern.rs`. -/
abbrev PatternList := List BashPattern

mutual

/-- `Display for GlobPart` in `pattern.rs`. -/
def displayGlobPart : GlobPart → Str
  | .str s => s
  | .escaped c => '\\' :: [c]
  | .anyString => ['*']
  | .anyChar => ['?']
  | .range s => '[' :: s ++ [']']
  | .zeroOrOneOf l => '?' :: '(' :: displayPatternList l ++ [')']
  | .zeroOrMoreOf l => '*' :: '(' :: displayPatternList l ++ [')']
  | .oneOrMoreOf l => '+' :: '(' :: displayPatternList l ++ [')']
  | .oneOf l => '@' :: '(' :: displayPatternList l ++ [')']
  | .notOf l => '!' :: '(' :: displayPatternList l ++ [')']

/-- `Display for BashPattern` in `pattern.rs`: parts concatenated. -/
def displayBashPattern : BashPattern → Str
  | [] => []
  | p :: ps => displayGlobPart p ++ displayBashPattern ps

/-- `Display for PatternList` in `pattern.rs`: patterns joined with `|`. -/
def displayPatternList : PatternList → Str
  | [] => []
  | [p] => displayBashPattern p
  | p :: ps => displayBashPattern p ++ '|' :: displayPatternList ps

end

/-- The characters escaped by `regex::escape` (the regex crate's
meta characters). -/
def regexMeta : List Char :=
  ['\\', '.', '+', '*', '?', '(', ')', '|', '[', ']', '\x7b', '\x7d', '^', '$', '#', '&', '-', '~']

/-- `regex::escape`. -/
def regexEscape : Str → Str
  | [] => []
  | c :: cs => if regexMeta.contains c then '\\' :: c :: regexEscape cs else c :: regexEscape cs

mutual

/-- `BashPattern::build_regex` in `pattern.rs`, producing the regex source
text.  `none` models the `todo!()` panic reached for character-range parts
(`GlobPart::Range`), a documented gap of the pattern compiler. -/
def buildRegexPart (greedy : Bool) : GlobPart → Option Str
  | .str s => some (regexEscape s)
  | .escaped c => some (regexEscape [c])
  | .anyString => some ('.' :: '*' :: (if greedy then [] else ['?']))
  | .anyChar => some ['.', '?']
  | .range _ => none
  | .zeroOrOneOf l => (buildRegexList greedy l).map (fun r => r ++ ['?'])
  | .zeroOrMoreOf l =>
    (buildRegexList greedy l).map (fun r => r ++ '*' :: (if greedy then [] else ['?']))
  | .oneOrMoreOf l =>
    (buildRegexList greedy l).map (fun r => r ++ '+' :: (if greedy then [] else ['?']))
  | .oneOf l => buildRegexList greedy l
  | .notOf l =>
    (buildRegexList greedy l).map (fun r => '(' :: '?' :: '!' :: r ++ [')', '.', '*'])

/-- The part-by-part loop of `BashPattern::build_regex`. -/
def buildRegexPattern (greedy : Bool) : BashPattern → Option Str
  | [] => some []
  | p :: ps => do
    let r ← buildRegexPart greedy p
    let rs ← buildRegexPattern greedy ps
    some (r ++ rs)

/-- `PatternList::build_regex` in `pattern.rs`: a parenthesized
`|`-alternation. -/
def buildRegexList (greedy : Bool) (l : PatternList) : Option Str := do
  let inner ← buildRegexListInner greedy l
  some ('(' :: inner ++ [')'])

/-- The joining loop of `PatternList::build_regex`. -/
def buildRegexListInner (greedy : Bool) : PatternList → Option Str
  | [] => some []
  | [p] => buildRegexPattern greedy p
  | p :: ps => do
    let r ← buildRegexPattern greedy p
    let rs ← buildRegexListInner greedy ps
    some (r ++ '|' :: rs)

end

mutual

/-- Whether a pattern contains a `!(...)` group anywhere.  The regex crate
used by `BashPattern::to_regex` rejects the look-ahead `(?!` that
`build_regex` emits for such groups, so regex compilation fails exactly
on these patterns (modelled from the external regex crate's documented
lack of look-around support). -/
def patternHasNot : BashPattern → Bool
  | [] => false
  | p :: ps => globPartHasNot p || patternHasNot ps

def globPartHasNot : GlobPart → Bool
  | .notOf _ => true
  | .zeroOrOneOf l => patternListHasNot l
  | .zeroOrMoreOf l => patternListHasNot l
  | .oneOrMoreOf l => patternListHasNot l
  | .oneOf l => patternListHasNot l
  | _ => false

def patternListHasNot : PatternList → Bool
  | [] => false
  | p :: ps => patternHasNot p || patternListHasNot ps

end

/-! ## The lossless syntax tree (`apml/lst.rs`) -/

/-- `LiteralPart` from `lst.rs`. -/
inductive LiteralPart where
  | str (s : Str)
  | escaped (c : Char)
  | lineContinuation

mutual

/-- `Text` from `lst.rs`: a list of text units. -/
inductive LText where
  | mk (units : List LTextUnit)

/-- `TextUnit` from `lst.rs`. -/
inductive LTextUnit where
  | unquoted (ws : List LWord)
  | singleQuote (s : Str)
  | doubleQuote (ws : List LWord)

/-- `Word` from `lst.rs`. -/
inductive LWord where
  | literal (parts : List LiteralPart)
  | unbracedVariable (name : Str)
  | bracedVariable (e : LBracedExpansion)
  | subcommand (tokens : List LArrayToken)

/-- `BracedExpansion` from `lst.rs`. -/
inductive LBracedExpansion where
  | mk (name : Str) (modifier : Option LModifier)

/-- `ExpansionModifier` from `lst.rs`. -/
inductive LModifier where
  | substring (offset : Str) (length : Option Str)
  | stripShortestPre (p : BashPattern)
  | stripLongestPre (p : BashPattern)
  | stripShortestSuf (p : BashPattern)
  | stripLongestSuf (p : BashPattern)
  | replaceOnce (p : BashPattern) (s : Option LText)
  | replaceAll (p : BashPattern) (s : Option LText)
  | replacePre (p : BashPattern) (s : Option LText)
  | replaceSuf (p : BashPattern) (s : Option LText)
  | upperOnce (p : BashPattern)
  | upperAll (p : BashPattern)
  | lowerOnce (p : BashPattern)
  | lowerAll (p : BashPattern)
  | errorOnUnset (t : LText)
  | length
  | whenUnset (t : LText)
  | whenSet (t : LText)
  | arrayElements
  | singleWordElements

/-- `ArrayToken` from `lst.rs`. -/
inductive LArrayToken where
  | spacy (c : Char)
  | newline
  | comment (s : Str)
  | element (t : LText)

end

/-- `VariableOp` from `lst.rs`. -/
inductive VariableOp where
  | assignment
  | append

/-- `VariableValue` from `lst.rs`. -/
inductive LValue where
  | str (t : LText)
  | array (tokens : List LArrayToken)

/-- `VariableDefinition` from `lst.rs`. -/
structure LVarDef where
  name : Str
  op : VariableOp
  value : LValue

/-- `Token` from `lst.rs`. -/
inductive LToken where
  | spacy (c : Char)
  | newline
  | comment (s : Str)
  | var (d : LVarDef)

/-- `ApmlLst`: a parsed document is a list of tokens. -/
abbrev Lst := List LToken

/-- `Display for LiteralPart` in `lst.rs`. -/
def displayLiteralPart : LiteralPart → Str
  | .str s => s
  | .escaped c => '\\' :: [c]
  | .lineContinuation => ['\\', '\n']

mutual

/-- `Display for Text` in `lst.rs`. -/
def displayLText : LText → Str
  | .mk units => displayLTextUnits units

def displayLTextUnits : List LTextUnit → Str
  | [] => []
  | u :: us => displayLTextUnit u ++ displayLTextUnits us

/-- `Display for TextUnit` in `lst.rs`. -/
def displayLTextUnit : LTextUnit → Str
  | .unquoted ws => displayLWords ws
  | .singleQuote s => '\'' :: s ++ ['\'']
  | .doubleQuote ws => '"' :: displayLWords ws ++ ['"']

def displayLWords : List LWord → Str
  | [] => []
  | w :: ws => displayLWord w ++ displayLWords ws

/-- `Display for Word` in `lst.rs`. -/
def displayLWord : LWord → Str
  | .literal parts => displayLiteralParts parts
  | .unbracedVariable name => '$' :: name
  | .bracedVariable e => '$' :: '\x7b' :: displayLBracedExpansion e ++ ['\x7d']
  | .subcommand tokens => '$' :: '(' :: displayLArrayTokens tokens ++ [')']

def displayLiteralParts : List LiteralPart → Str
  | [] => []
  | p :: ps => displayLiteralPart p ++ displayLiteralParts ps

/-- `Display for BracedExpansion` in `lst.rs`: the `Length` modifier is
rendered as a `#` before the name, a missing modifier as the bare name. -/
def displayLBracedExpansion : LBracedExpansion → Str
  | .mk name modifier =>
    match modifier with
    | some .length => '#' :: name
    | none => name
    | some m => name ++ displayLModifier m

/-- `Display for ExpansionModifier` in `lst.rs`. -/
def displayLModifier : LModifier → Str
  | .substring offset length =>
    match length with
    | none => ':' :: offset
    | some l => ':' :: offset ++ ':' :: l
  | .stripShortestPre p => '#' :: displayBashPattern p
  | .stripLongestPre p => '#' :: '#' :: displayBashPattern p
  | .stripShortestSuf p => '%' :: displayBashPattern p
  | .stripLongestSuf p => '%' :: '%' :: displayBashPattern p
  | .replaceOnce p s =>
    match s with
    | some s => '/' :: displayBashPattern p ++ '/' :: displayLText s
    | none => '/' :: displayBashPattern p
  | .replaceAll p s =>
    match s with
    | some s => '/' :: '/' :: displayBashPattern p ++ '/' :: displayLText s
    | none => '/' :: '/' :: displayBashPattern p
  | .replacePre p s =>
    match s with
    | some s => '/' :: '#' :: displayBashPattern p ++ '/' :: displayLText s
    | none => '/' :: '#' :: displayBashPattern p
  | .replaceSuf p s =>
    match s with
    | some s => '/' :: '%' :: displayBashPattern p ++ '/' :: displayLText s
    | none => '/' :: '%' :: displayBashPattern p
  | .upperOnce p => '^' :: displayBashPattern p
  | .upperAll p => '^' :: '^' :: displayBashPattern p
  | .lowerOnce p => ',' :: displayBashPattern p
  | .lowerAll p => ',' :: ',' :: displayBashPattern p
  | .errorOnUnset t => ':' :: '?' :: displayLText t
  | .length => ['#']
  | .whenUnset t => ':' :: '-' :: displayLText t
  | .whenSet t => ':' :: '+' :: displayLText t
  | .arrayElements => ['[', '@', ']']
  | .singleWordElements => ['[', '*', ']']

def displayLArrayTokens : List LArrayToken → Str
  | [] => []
  | t :: ts => displayLArrayToken t ++ displayLArrayTokens ts

/-- `Display for ArrayToken` in `lst.rs`. -/
def displayLArrayToken : LArrayToken → Str
  | .spacy c => [c]
  | .newline => ['\n']
  | .comment s => '#' :: s
  | .element t => displayLText t

end

/-- `Display for VariableOp` in `lst.rs`. -/
def displayVariableOp : VariableOp → Str
  | .assignment => ['=']
  | .append => ['+', '=']

/-- `Display for VariableValue` in `lst.rs`. -/
def displayLValue : LValue → Str
  | .str t => displayLText t
  | .array tokens => '(' :: displayLArrayTokens tokens ++ [')']

/-- `Display for VariableDefinition` in `lst.rs`. -/
def displayLVarDef (d : LVarDef) : Str :=
  d.name ++ displayVariableOp d.op ++ displayLValue d.value

/-- `Display for Token` in `lst.rs`. -/
def displayLToken : LToken → Str
  | .spacy c => [c]
  | .newline => ['\n']
  | .comment s => '#' :: s
  | .var d => displayLVarDef d

/-- `Display for ApmlLst` in `lst.rs`: the `to_text` serialization. -/
def displayLst : Lst → Str
  | [] => []
  | t :: ts => displayLToken t ++ displayLst ts

end Apml

namespace Apml

/-! ## Parser combinators (nom-style, over `List Char`)

The parser producing the current LST (`apml_lst` in `apml/parser.rs`,
referenced by `ApmlLst::parse`) is not among the provided sources; only its
historical snapshot, its callers and the grammar documentation are.  The
combinators below therefore follow nom's semantics, and the grammar
functions further down are modelled from the specification's grammar
(section 4.2 and section 6), consistent with the historical snapshot and
with the pattern grammar, which is present in `pattern.rs`.

A parser takes the remaining input and returns the rest plus a value, or
fails.  Recursive parsers carry a fuel argument; exhausted fuel makes a
parser fail (or stop, for repetitions), which on concrete inputs with
ample fuel coincides with the unbounded recursion of the source. -/

/-- Parser type: input to rest-of-input and result. -/
def P (α : Type) : Type := Str → Option (Str × α)

/-- `nom::combinator::map`. -/
def pmap {α β : Type} (f : α → β) (p : P α) : P β := fun i =>
  (p i).map (fun r => (r.1, f r.2))

/-- Two-way `nom::branch::alt`. -/
def palt {α : Type} (p q : P α) : P α := fun i =>
  match p i with
  | some r => some r
  | none => q i

/-- Sequencing two parsers, pairing their results. -/
def pseq {α β : Type} (p : P α) (q : P β) : P (α × β) := fun i =>
  (p i).bind (fun ra => (q ra.1).map (fun rb => (rb.1, (ra.2, rb.2))))

/-- `nom::sequence::preceded`. -/
def ppre {α β : Type} (p : P α) (q : P β) : P β := pmap Prod.snd (pseq p q)

/-- `nom::sequence::terminated`. -/
def pterm {α β : Type} (p : P α) (q : P β) : P α := pmap Prod.fst (pseq p q)

/-- `nom::sequence::delimited`. -/
def pdelim {α β γ : Type} (l : P α) (m : P β) (r : P γ) : P β :=
  pmap (fun x => x.1.2) (pseq (pseq l m) r)

/-- `nom::combinator::opt`. -/
def popt {α : Type} (p : P α) : P (Option α) := fun i =>
  match p i with
  | some (r, a) => some (r, some a)
  | none => some (i, none)

/-- `nom::character::complete::char`. -/
def pchar (c : Char) : P Char := fun i =>
  match i with
  | [] => none
  | c' :: rest => if c' = c then some (rest, c') else none

/-- A parser consuming any single character (`nom`'s `anychar`). -/
def panychar : P Char := fun i =>
  match i with
  | [] => none
  | c :: rest => some (rest, c)

/-- A parser for a single character satisfying a predicate. -/
def psat (f : Char → Bool) : P Char := fun i =>
  match i with
  | [] => none
  | c :: rest => if f c then some (rest, c) else none

/-- `nom::bytes::complete::tag`. -/
def ptag (t : Str) : P Str := fun i =>
  if t.isPrefixOf i then some (i.drop t.length, t) else none

/-- `nom::bytes::complete::take_while` (never fails). -/
def ptakeWhile (f : Char → Bool) : P Str := fun i =>
  some (i.dropWhile f, i.takeWhile f)

/-- `nom::bytes::complete::take_while1`. -/
def ptakeWhile1 (f : Char → Bool) : P Str := fun i =>
  match i.takeWhile f with
  | [] => none
  | taken => some (i.dropWhile f, taken)

/-- `nom::bytes::complete::take_till`. -/
def ptakeTill (f : Char → Bool) : P Str := ptakeWhile (fun c => ¬ f c)

/-- `nom::multi::many0`, with an iteration bound; exhausted fuel stops the
repetition.  As in nom, an inner success that consumes nothing aborts the
whole repetition (infinite-loop protection); the grammar's inner parsers
always consume. -/
def pmany0 {α : Type} : Nat → P α → P (List α)
  | 0, _ => fun i => some (i, [])
  | fuel + 1, p => fun i =>
    match p i with
    | none => some (i, [])
    | some (r, a) =>
      if r.length = i.length then none
      else
        match pmany0 fuel p r with
        | none => none
        | some (r', as_) => some (r', a :: as_)

/-- `nom::multi::many1`: one occurrence then `many0`. -/
def pmany1 {α : Type} (fuel : Nat) (p : P α) : P (List α) :=
  pmap (fun x => x.1 :: x.2) (pseq p (pmany0 fuel p))

/-! Generic facts: every parser built from these combinators leaves a
suffix of its input. -/

/-- The rest returned by a parser is a suffix of the input. -/
def SuffixP {α : Type} (p : P α) : Prop :=
  ∀ i r x, p i = some (r, x) → r.IsSuffix i

/-- A parser strictly consumes input whenever it succeeds. -/
def ProgressP {α : Type} (p : P α) : Prop :=
  ∀ i r x, p i = some (r, x) → r.length < i.length

end Apml

namespace Apml

/-! ## The LST grammar

Modelled from the spec: the parser combinator `apml_lst` referenced by
`ApmlLst::parse` (its module is absent from the provided sources).  The
grammar follows specification sections 4.2 and 6 — tokens are spaces,
newlines, `#` comments and `NAME(=|+=)VALUE` definitions; values are
arrays or texts; texts are single-quoted, double-quoted or unquoted runs
of words; words are braced or unbraced expansions, sub-commands or
literals — and agrees with the historical parser snapshot in
`parser.rs` and with the pattern grammar, which is present in
`pattern.rs` (`bash_pattern`, `pattern_part`, `pattern_list`). -/

/-- Spec: variable names match one or more of `[A-Za-z0-9_]`. -/
def isNameChar (c : Char) : Bool := c.isAlpha || c.isDigit || c = '_'

/-- `variable_name`: `take_while1` over name characters. -/
def pVarName : P Str := ptakeWhile1 isNameChar

/-- A space-like character: space or tab. -/
def pSpacyChar : P Char := palt (pchar ' ') (pchar '\t')

/-- The operator of a definition: `+=` or `=`. -/
def pOp : P VariableOp :=
  palt (pmap (fun _ => VariableOp.append) (ptag ['+', '=']))
    (pmap (fun _ => VariableOp.assignment) (pchar '='))

/-- The permissive numeric field of the substring modifier: digits and
`' '`, `'\n'`, `'-'`, `'\t'`. -/
def pNumber : P Str :=
  ptakeWhile1 (fun c => c.isDigit || c = ' ' || c = '\n' || c = '-' || c = '\t')

/-- `literal_part`: a line continuation, an escaped character, or a run of
characters outside `$`, `"`, `\` and the context's terminators. -/
def pLiteralPart (cond : Char → Bool) : P LiteralPart :=
  palt (pmap (fun _ => LiteralPart.lineContinuation) (ptag ['\\', '\n']))
    (palt (pmap LiteralPart.escaped (ppre (pchar '\\') panychar))
      (pmap LiteralPart.str
        (ptakeWhile1 (fun c => c != '$' && c != '"' && c != '\\' && cond c))))

mutual

/-- A top-level token: space, newline, comment or variable definition. -/
def pToken : Nat → P LToken
  | 0 => fun _ => none
  | fuel + 1 =>
    palt (pmap LToken.spacy pSpacyChar)
      (palt (pmap (fun _ => LToken.newline) (pchar '\n'))
        (palt (pmap LToken.comment (ppre (pchar '#') (ptakeTill (fun c => c = '\n'))))
          (pmap LToken.var (pVarDef fuel))))

/-- `NAME(=|+=)VALUE`. -/
def pVarDef : Nat → P LVarDef
  | 0 => fun _ => none
  | fuel + 1 =>
    pmap (fun x => LVarDef.mk x.1.1 x.1.2 x.2) (pseq (pseq pVarName pOp) (pValue fuel))

/-- A value: `(` array tokens `)` or a text whose units terminate at space
and `#`. -/
def pValue : Nat → P LValue
  | 0 => fun _ => none
  | fuel + 1 =>
    palt
      (pmap LValue.array (pdelim (pchar '(') (pmany0 fuel (pArrayToken fuel)) (pchar ')')))
      (pmap (fun us => LValue.str (LText.mk us))
        (pmany0 fuel (pTextUnit fuel (fun c => c != ' ' && c != '#'))))

/-- An array token: space, newline, comment, or an element text that
additionally terminates at `)`. -/
def pArrayToken : Nat → P LArrayToken
  | 0 => fun _ => none
  | fuel + 1 =>
    palt (pmap LArrayToken.spacy pSpacyChar)
      (palt (pmap (fun _ => LArrayToken.newline) (pchar '\n'))
        (palt (pmap LArrayToken.comment (ppre (pchar '#') (ptakeTill (fun c => c = '\n'))))
          (pmap (fun us => LArrayToken.element (LText.mk us))
            (pmany1 fuel (pTextUnit fuel (fun c => c != ' ' && c != '#' && c != ')'))))))

/-- A text unit: single-quoted, double-quoted, or a nonempty unquoted run
of words (which additionally exclude `'` and newline). -/
def pTextUnit : Nat → (Char → Bool) → P LTextUnit
  | 0, _ => fun _ => none
  | fuel + 1, cond =>
    palt
      (pmap LTextUnit.singleQuote
        (pdelim (pchar '\'') (ptakeWhile (fun c => c != '\'')) (pchar '\'')))
      (palt
        (pmap LTextUnit.doubleQuote
          (pdelim (pchar '"') (pmany0 fuel (pWord fuel (fun _ => true))) (pchar '"')))
        (pmap LTextUnit.unquoted
          (pmany1 fuel (pWord fuel (fun c => cond c && c != '\'' && c != '\n')))))

/-- A word, in priority order: braced expansion, unbraced expansion,
sub-command, literal. -/
def pWord : Nat → (Char → Bool) → P LWord
  | 0, _ => fun _ => none
  | fuel + 1, cond =>
    palt
      (pmap LWord.bracedVariable
        (pdelim (ptag ['$', '\x7b']) (pBracedExpansion fuel) (pchar '\x7d')))
      (palt (pmap LWord.unbracedVariable (ppre (pchar '$') pVarName))
        (palt
          (pmap LWord.subcommand
            (pdelim (ptag ['$', '(']) (pmany0 fuel (pArrayToken fuel)) (pchar ')')))
          (pmap LWord.literal (pmany1 fuel (pLiteralPart cond)))))

/-- `${#name}` or `${name[modifier]}`. -/
def pBracedExpansion : Nat → P LBracedExpansion
  | 0 => fun _ => none
  | fuel + 1 =>
    palt
      (pmap (fun n => LBracedExpansion.mk n (some LModifier.length))
        (ppre (pchar '#') pVarName))
      (pmap (fun x => LBracedExpansion.mk x.1 x.2) (pseq pVarName (popt (pModifier fuel))))

/-- The expansion-modifier dispatch, in the spec's prefix order:
`##`, `#`, `%%`, `%`, `//`, `/#`, `/%`, `/`, `^^`, `^`, `,,`, `,`,
`:?`, `:-`, `:+`, `[@]`, `[*]`, else the numeric substring form. -/
def pModifier : Nat → P LModifier
  | 0 => fun _ => none
  | fuel + 1 =>
    palt (pmap LModifier.stripLongestPre (ppre (ptag ['#', '#']) (pGlob fuel (fun c => c = '\x7d'))))
    (palt (pmap LModifier.stripShortestPre (ppre (pchar '#') (pGlob fuel (fun c => c = '\x7d'))))
    (palt (pmap LModifier.stripLongestSuf (ppre (ptag ['%', '%']) (pGlob fuel (fun c => c = '\x7d'))))
    (palt (pmap LModifier.stripShortestSuf (ppre (pchar '%') (pGlob fuel (fun c => c = '\x7d'))))
    (palt (pmap (fun x => LModifier.replaceAll x.1 x.2)
        (ppre (ptag ['/', '/'])
          (pseq (pGlob fuel (fun c => c = '\x7d' || c = '/'))
            (popt (ppre (pchar '/') (pModText fuel))))))
    (palt (pmap (fun x => LModifier.replacePre x.1 x.2)
        (ppre (ptag ['/', '#'])
          (pseq (pGlob fuel (fun c => c = '\x7d' || c = '/'))
            (popt (ppre (pchar '/') (pModText fuel))))))
    (palt (pmap (fun x => LModifier.replaceSuf x.1 x.2)
        (ppre (ptag ['/', '%'])
          (pseq (pGlob fuel (fun c => c = '\x7d' || c = '/'))
            (popt (ppre (pchar '/') (pModText fuel))))))
    (palt (pmap (fun x => LModifier.replaceOnce x.1 x.2)
        (ppre (pchar '/')
          (pseq (pGlob fuel (fun c => c = '\x7d' || c = '/'))
            (popt (ppre (pchar '/') (pModText fuel))))))
    (palt (pmap LModifier.upperAll (ppre (ptag ['^', '^']) (pGlob fuel (fun c => c = '\x7d'))))
    (palt (pmap LModifier.upperOnce (ppre (pchar '^') (pGlob fuel (fun c => c = '\x7d'))))
    (palt (pmap LModifier.lowerAll (ppre (ptag [',', ',']) (pGlob fuel (fun c => c = '\x7d'))))
    (palt (pmap LModifier.lowerOnce (ppre (pchar ',') (pGlob fuel (fun c => c = '\x7d'))))
    (palt (pmap LModifier.errorOnUnset (ppre (ptag [':', '?']) (pModText fuel)))
    (palt (pmap LModifier.whenUnset (ppre (ptag [':', '-']) (pModText fuel)))
    (palt (pmap LModifier.whenSet (ppre (ptag [':', '+']) (pModText fuel)))
    (palt (pmap (fun _ => LModifier.arrayElements) (ptag ['[', '@', ']']))
    (palt (pmap (fun _ => LModifier.singleWordElements) (ptag ['[', '*', ']']))
      (ppre (pchar ':')
        (pmap (fun x => LModifier.substring x.1 x.2)
          (pseq pNumber (popt (ppre (pchar ':') pNumber)))))))))))))))))))))

/-- The text argument of a modifier: a text whose units terminate at the
closing brace. -/
def pModText : Nat → P LText
  | 0 => fun _ => none
  | fuel + 1 => pmap LText.mk (pmany0 fuel (pTextUnit fuel (fun c => c != '\x7d')))

/-- `bash_pattern` from `pattern.rs`: one or more pattern parts. -/
def pGlob : Nat → (Char → Bool) → P BashPattern
  | 0, _ => fun _ => none
  | fuel + 1, ex => pmany1 fuel (pPatternPart fuel ex)

/-- `pattern_part` from `pattern.rs`. -/
def pPatternPart : Nat → (Char → Bool) → P GlobPart
  | 0, _ => fun _ => none
  | fuel + 1, ex =>
    palt (pmap GlobPart.escaped (ppre (pchar '\\') panychar))
    (palt (pmap GlobPart.zeroOrOneOf (pdelim (ptag ['?', '(']) (pPatternList fuel) (pchar ')')))
    (palt (pmap GlobPart.zeroOrMoreOf (pdelim (ptag ['*', '(']) (pPatternList fuel) (pchar ')')))
    (palt (pmap GlobPart.oneOrMoreOf (pdelim (ptag ['+', '(']) (pPatternList fuel) (pchar ')')))
    (palt (pmap GlobPart.oneOf (pdelim (ptag ['@', '(']) (pPatternList fuel) (pchar ')')))
    (palt (pmap GlobPart.notOf (pdelim (ptag ['!', '(']) (pPatternList fuel) (pchar ')')))
    (palt (pmap (fun _ => GlobPart.anyString) (pchar '*'))
    (palt (pmap (fun _ => GlobPart.anyChar) (pchar '?'))
    (palt (pmap GlobPart.range
        (pdelim (pchar '[') (ptakeWhile1 (fun c => c != ']')) (pchar ']')))
      (pmap GlobPart.str
        (ptakeWhile1 (fun c => c != '[' && c != '*' && c != '?' && c != '\\' && !(ex c))))))))))))

/-- `pattern_list` from `pattern.rs`: `many0` of a pattern (with `|` and
`)` excluded) each followed by an optional `|`. -/
def pPatternList : Nat → P PatternList
  | 0 => fun _ => none
  | fuel + 1 =>
    pmany0 fuel (pterm (pGlob fuel (fun c => c = '|' || c = ')')) (popt (pchar '|')))

end

/-- `ParseError` from the parser module: a single unexpected-source error
carrying a 1-based position. -/
inductive ParseErr where
  | unexpectedSource (pos : Nat)
deriving DecidableEq

/-- Fuel that amply covers the recursion depth of the grammar on `s`:
every nesting level of the grammar consumes at least one character. -/
def apmlFuel (s : Str) : Nat := s.length + 64

/-- The token sequence parser (`apml_lst`): `many0` of tokens. -/
def pLst (fuel : Nat) : P Lst := pmany0 fuel (pToken fuel)

/-- `ApmlLst::parse` in `lst.rs`: run `apml_lst`, and if input remains,
report `ParseError::UnexpectedSource` at `nom::Offset::offset(src, out) + 1`.
`nom`'s offset for string slices is the byte distance between the two
slice start pointers, i.e. the UTF-8 byte length of the consumed prefix;
it is modelled as the difference of the byte lengths.  (The `none` branch
is unreachable: every token consumes input, so `many0` cannot fail.) -/
def apmlParse (s : Str) : Except ParseErr Lst :=
  match pLst (apmlFuel s) s with
  | none => .error (.unexpectedSource 0)
  | some (rest, tree) =>
    if rest = [] then .ok tree
    else .error (.unexpectedSource (blen s - blen rest + 1))

end Apml

namespace Apml

/-! ## The abstract syntax tree and emission (`apml/ast.rs`) -/

/-- `EmitError` from `ast.rs`. -/
inductive EmitError where
  | unrepresentable
  | unparsableInt
  | missingRootElementDelimiter
  | missingArrayElementDelimiter
deriving DecidableEq

mutual

/-- `Word` from `ast.rs` (`Word::Variable` is `varRef` here). -/
inductive AWord where
  | literal (s : Str)
  | varRef (e : AExpansion)
  | subcommand (s : Str)

/-- `VariableExpansion` from `ast.rs`. -/
inductive AExpansion where
  | mk (name : Str) (modifier : Option AModifier)

/-- `ExpansionModifier` from `ast.rs`; replace strings and conditional
texts are `Text`s, that is word lists. -/
inductive AModifier where
  | substring (offset : Nat) (length : Option Int)
  | stripShortestPre (p : BashPattern)
  | stripLongestPre (p : BashPattern)
  | stripShortestSuf (p : BashPattern)
  | stripLongestSuf (p : BashPattern)
  | replaceOnce (p : BashPattern) (s : List AWord)
  | replaceAll (p : BashPattern) (s : List AWord)
  | replacePre (p : BashPattern) (s : List AWord)
  | replaceSuf (p : BashPattern) (s : List AWord)
  | upperOnce (p : BashPattern)
  | upperAll (p : BashPattern)
  | lowerOnce (p : BashPattern)
  | lowerAll (p : BashPattern)
  | errorOnUnset (t : List AWord)
  | length
  | whenUnset (t : List AWord)
  | whenSet (t : List AWord)

end

/-- `Text` from `ast.rs`: a list of words. -/
abbrev AText := List AWord

/-- `ArrayElement` from `ast.rs`. -/
inductive AArrayElement where
  | arrayInclusion (n : Str)
  | text (t : AText)

/-- `VariableValue` from `ast.rs`. -/
inductive AValue where
  | str (t : AText)
  | array (els : List AArrayElement)

/-- `VariableDefinition` from `ast.rs` (the operator is desugared away). -/
structure ADef where
  name : Str
  value : AValue

/-- `ApmlAst`: a list of definitions. -/
abbrev AAst := List ADef

/-- `emit_literal_part` in `ast.rs`: literal parts concatenated, line
continuations contributing nothing. -/
def concatLiteralParts : List LiteralPart → Str
  | [] => []
  | .str s :: ps => s ++ concatLiteralParts ps
  | .escaped c :: ps => c :: concatLiteralParts ps
  | .lineContinuation :: ps => concatLiteralParts ps

mutual

/-- `Text::emit_from` in `ast.rs`: units flattened into one word list. -/
def emitText : LText → Except EmitError AText
  | .mk units => emitTextUnits units

def emitTextUnits : List LTextUnit → Except EmitError AText
  | [] => .ok []
  | u :: us => do
    let ws ← emitTextUnit u
    let rest ← emitTextUnits us
    .ok (ws ++ rest)

/-- `emit_text_unit` in `ast.rs`: quoting is flattened; a single-quoted
unit becomes one literal word. -/
def emitTextUnit : LTextUnit → Except EmitError AText
  | .unquoted ws => emitWords ws
  | .doubleQuote ws => emitWords ws
  | .singleQuote s => .ok [AWord.literal s]

def emitWords : List LWord → Except EmitError AText
  | [] => .ok []
  | w :: ws => do
    let a ← emitWord w
    let rest ← emitWords ws
    .ok (a :: rest)

/-- `Word::emit_from` in `ast.rs`: literal parts are merged into a single
literal; sub-commands are captured as their own serialized source text,
`$(` and `)` included. -/
def emitWord : LWord → Except EmitError AWord
  | .literal parts =>
    match parts with
    | [.str s] => .ok (.literal s)
    | [.escaped c] => .ok (.literal [c])
    | [.lineContinuation] => .ok (.literal [])
    | _ => .ok (.literal (concatLiteralParts parts))
  | .unbracedVariable n => .ok (.varRef (.mk n none))
  | .bracedVariable e => (emitExpansion e).map .varRef
  | .subcommand toks => .ok (.subcommand (displayLWord (.subcommand toks)))

/-- `VariableExpansion::emit_from` in `ast.rs`: the array-only modifiers
`[@]` and `[*]` are dropped (`take_if`), others are emitted. -/
def emitExpansion : LBracedExpansion → Except EmitError AExpansion
  | .mk name modifier =>
    match modifier with
    | none => .ok (.mk name none)
    | some .arrayElements => .ok (.mk name none)
    | some .singleWordElements => .ok (.mk name none)
    | some m => (emitModifier m).map (fun am => .mk name (some am))

/-- `ExpansionModifier::emit_from` in `ast.rs`.  The substring offset is
parsed from its trimmed text and clamped with `max(_, 0)`; parse failures
become `UnparsableInt`.  The array-only modifiers are unrepresentable. -/
def emitModifier : LModifier → Except EmitError AModifier
  | .substring offset length => do
    let o ← match parseIsize (trimChars offset) with
      | some o => Except.ok o
      | none => Except.error EmitError.unparsableInt
    let l ← match length with
      | none => Except.ok none
      | some lenStr =>
        match parseIsize (trimChars lenStr) with
        | some l => Except.ok (some l)
        | none => Except.error EmitError.unparsableInt
    .ok (.substring (max o 0).toNat l)
  | .stripShortestPre p => .ok (.stripShortestPre p)
  | .stripLongestPre p => .ok (.stripLongestPre p)
  | .stripShortestSuf p => .ok (.stripShortestSuf p)
  | .stripLongestSuf p => .ok (.stripLongestSuf p)
  | .replaceOnce p s => (emitOptText s).map (fun t => .replaceOnce p t)
  | .replaceAll p s => (emitOptText s).map (fun t => .replaceAll p t)
  | .replacePre p s => (emitOptText s).map (fun t => .replacePre p t)
  | .replaceSuf p s => (emitOptText s).map (fun t => .replaceSuf p t)
  | .upperOnce p => .ok (.upperOnce p)
  | .upperAll p => .ok (.upperAll p)
  | .lowerOnce p => .ok (.lowerOnce p)
  | .lowerAll p => .ok (.lowerAll p)
  | .errorOnUnset t => (emitText t).map .errorOnUnset
  | .length => .ok .length
  | .whenUnset t => (emitText t).map .whenUnset
  | .whenSet t => (emitText t).map .whenSet
  | .arrayElements => .error .unrepresentable
  | .singleWordElements => .error .unrepresentable

/-- An omitted replace string is `Text::default()`, the empty text. -/
def emitOptText : Option LText → Except EmitError AText
  | none => .ok []
  | some t => emitText t

end

/-- `ArrayElement::emit_from` in `ast.rs`: a sole `${name[@]}` word in the
element is recognized as an array splice; everything else is a text
element; non-element tokens are unrepresentable. -/
def emitArrayElement : LArrayToken → Except EmitError AArrayElement
  | .spacy _ => .error .unrepresentable
  | .newline => .error .unrepresentable
  | .comment _ => .error .unrepresentable
  | .element t =>
    match t with
    | .mk [LTextUnit.unquoted [LWord.bracedVariable (.mk n (some .arrayElements))]] =>
      .ok (.arrayInclusion n)
    | .mk [LTextUnit.doubleQuote [LWord.bracedVariable (.mk n (some .arrayElements))]] =>
      .ok (.arrayInclusion n)
    | _ => (emitText t).map .text

/-- The statement-slot state of the emitters in `ast.rs`. -/
inductive SlotState where
  | ready
  | needDelimiter
  | needNewline
deriving DecidableEq

/-- The array token loop of `VariableValue::emit_from` in `ast.rs`: a
space resets a pending delimiter but not a pending newline; a newline
resets everything; a comment demands a newline; an element is accepted
only in the ready state. -/
def emitArr : SlotState → List LArrayToken → Except EmitError (List AArrayElement)
  | _, [] => .ok []
  | st, .spacy _ :: ts =>
    match st with
    | .needNewline => emitArr .needNewline ts
    | _ => emitArr .ready ts
  | _, .newline :: ts => emitArr .ready ts
  | _, .comment _ :: ts => emitArr .needNewline ts
  | st, .element t :: ts =>
    match st with
    | .ready => do
      let a ← emitArrayElement (.element t)
      let rest ← emitArr .needDelimiter ts
      .ok (a :: rest)
    | _ => .error .missingArrayElementDelimiter

/-- `VariableValue::emit_from` in `ast.rs`. -/
def emitValue : LValue → Except EmitError AValue
  | .str t => (emitText t).map .str
  | .array toks => (emitArr .ready toks).map .array

/-- The append-desugaring rewrite of `VariableDefinition::emit_from`:
prefix the value with a self-reference (a plain variable word for texts,
an array splice for arrays). -/
def prependSelf (n : Str) : AValue → AValue
  | .str ws => .str (AWord.varRef (.mk n none) :: ws)
  | .array els => .array (.arrayInclusion n :: els)

/-- `VariableDefinition::emit_from` in `ast.rs`. -/
def emitVarDef (d : LVarDef) : Except EmitError ADef := do
  let v ← emitValue d.value
  match d.op with
  | .assignment => .ok ⟨d.name, v⟩
  | .append => .ok ⟨d.name, prependSelf d.name v⟩

/-- The root token loop of `ApmlAst::emit_from` in `ast.rs`: spaces do not
change the slot state; a newline readies it; a comment demands a newline;
a definition is accepted only in the ready state. -/
def emitRoot : SlotState → List LToken → Except EmitError (List ADef)
  | _, [] => .ok []
  | st, .spacy _ :: ts => emitRoot st ts
  | _, .newline :: ts => emitRoot .ready ts
  | _, .comment _ :: ts => emitRoot .needNewline ts
  | st, .var d :: ts =>
    match st with
    | .ready => do
      let a ← emitVarDef d
      let rest ← emitRoot .needDelimiter ts
      .ok (a :: rest)
    | _ => .error .missingRootElementDelimiter

/-- `ApmlAst::emit_from` in `ast.rs`. -/
def emitAst (l : Lst) : Except EmitError AAst := emitRoot .ready l

end Apml

namespace Apml

/-! ## Evaluation (`apml/eval.rs` and `apml/mod.rs`) -/

/-- `VariableValue` from `apml/mod.rs`: a scalar string or a string list. -/
inductive VV where
  | str (s : Str)
  | array (els : List Str)
deriving DecidableEq

/-- The evaluated context (`ApmlContext::variables`): the name-to-value
map is modelled as an association list where insertion replaces the first
binding of the name in place, refining the `HashMap` of the source. -/
abbrev Ctx := List (Str × VV)

/-- `HashMap::get`. -/
def ctxGet : Ctx → Str → Option VV
  | [], _ => none
  | (k, v) :: rest, n => if k = n then some v else ctxGet rest n

/-- `HashMap::insert`: replace the binding if present, else append. -/
def ctxInsert : Ctx → Str → VV → Ctx
  | [], n, v => [(n, v)]
  | (k, w) :: rest, n, v =>
    if k = n then (n, v) :: rest else (k, w) :: ctxInsert rest n v

/-- `VariableValue::into_string` in `mod.rs`: arrays join with spaces. -/
def vvIntoString : VV → Str
  | .str s => s
  | .array els => joinSpace els

/-- `VariableValue::into_array` in `mod.rs`: an empty string is the empty
array, other strings split on whitespace runs. -/
def vvIntoArray : VV → List Str
  | .str s => if s = [] then [] else splitWsAux [] s
  | .array els => els

/-- `VariableValue::len` in `mod.rs`: the byte length for a string, the
element count for an array. -/
def vvLen : VV → Nat
  | .str s => blen s
  | .array els => els.length

/-- `VariableValue::is_empty` in `mod.rs`. -/
def vvIsEmpty : VV → Bool
  | .str s => s.isEmpty
  | .array els => els.isEmpty

/-- The replacement applied to each regex match in
`apply_expansion_modifier`: a replacement string (whose `$n` references
the regex crate expands), a capture-group copy (`MatchReplacer`), or the
ASCII case-folding replacers. -/
inductive Replacer where
  | str (s : Str)
  | group (n : Nat)
  | upper
  | lower

/-- Modelled from the spec: the external regex crate's `replace` and
`replace_all` (regex source text, haystack, replacer to result), which
are not part of this repository.  Evaluation is parameterized over this
oracle; every arm that consults it is a pattern-based modifier. -/
structure RegexOracle where
  replaceOnce : Str → Str → Replacer → Str
  replaceAll : Str → Str → Replacer → Str

/-- A trivial oracle used to state closed concrete facts about programs
that contain no pattern-based modifier (the oracle is never consulted on
them). -/
def trivOracle : RegexOracle where
  replaceOnce := fun _ s _ => s
  replaceAll := fun _ s _ => s

/-- `EvalError` from `eval.rs`, extended with the two panics the
evaluator can reach: `panicTodo` is the `todo!()` in
`BashPattern::build_regex` for character-range parts, and `panicSlice`
is the out-of-range string indexing in the substring modifier. -/
inductive EvalErr where
  | regexError
  | unset (msg : Str)
  | panicTodo
  | panicSlice
deriving DecidableEq

/-- `BashPattern::to_regex` in `pattern.rs`: build the regex text between
the caller's anchors, then compile it.  Building panics on range parts;
compilation fails exactly when the text contains the look-ahead emitted
for `!(...)` groups, which the regex crate rejects. -/
def toRegexE (p : BashPattern) (before after : Str) (greedy : Bool) : Except EvalErr Str :=
  match buildRegexPattern greedy p with
  | none => .error .panicTodo
  | some r =>
    if patternHasNot p then .error .regexError
    else .ok (before ++ r ++ after)

mutual

/-- `eval_text` in `eval.rs`: words evaluated left to right and
concatenated. -/
def evalText (R : RegexOracle) (ctx : Ctx) : AText → Except EvalErr Str
  | [] => .ok []
  | w :: ws => do
    let s ← evalWord R ctx w
    let rest ← evalText R ctx ws
    .ok (s ++ rest)

/-- `eval_word` in `eval.rs`: literals and sub-commands evaluate to their
stored text; variables look up the current value (missing names default
to the empty string) and apply the modifier if any. -/
def evalWord (R : RegexOracle) (ctx : Ctx) : AWord → Except EvalErr Str
  | .literal s => .ok s
  | .subcommand s => .ok s
  | .varRef (.mk name modifier) =>
    match modifier with
    | some m => applyExpansionModifier R ctx m ((ctxGet ctx name).getD (VV.str []))
    | none => .ok (vvIntoString ((ctxGet ctx name).getD (VV.str [])))

/-- `apply_expansion_modifier` in `eval.rs`. -/
def applyExpansionModifier (R : RegexOracle) (ctx : Ctx) :
    AModifier → VV → Except EvalErr Str
  | .substring offset length, v =>
    let s := vvIntoString v
    match length with
    | some l =>
      if 0 < l then
        match byteSlice s offset (min (offset + l.toNat) (blen s)) with
        | some r => .ok r
        | none => .error .panicSlice
      else
        if l.natAbs ≤ blen s then
          match byteSlice s offset (blen s - l.natAbs) with
          | some r => .ok r
          | none => .error .panicSlice
        else .error .panicSlice
    | none =>
      match byteSlice s offset (blen s) with
      | some r => .ok r
      | none => .error .panicSlice
  | .stripShortestPre p, v => do
    let r ← toRegexE p "^(?:".data ")?(.*)$".data false
    .ok (R.replaceOnce r (vvIntoString v) (.group 1))
  | .stripLongestPre p, v => do
    let r ← toRegexE p "^(?:".data ")?(.*?)$".data true
    .ok (R.replaceOnce r (vvIntoString v) (.group 1))
  | .stripShortestSuf p, v => do
    let r ← toRegexE p "^(.*)(?:".data ")$".data false
    .ok (R.replaceOnce r (vvIntoString v) (.group 1))
  | .stripLongestSuf p, v => do
    let r ← toRegexE p "^(.*?)(?:".data ")$".data true
    .ok (R.replaceOnce r (vvIntoString v) (.group 1))
  | .replaceOnce p s, v => do
    let r ← toRegexE p [] [] true
    let rep ← evalText R ctx s
    .ok (R.replaceOnce r (vvIntoString v) (.str rep))
  | .replaceAll p s, v => do
    let r ← toRegexE p [] [] true
    let rep ← evalText R ctx s
    .ok (R.replaceAll r (vvIntoString v) (.str rep))
  | .replacePre p s, v => do
    let r ← toRegexE p ['^'] [] true
    let rep ← evalText R ctx s
    .ok (R.replaceAll r (vvIntoString v) (.str rep))
  | .replaceSuf p s, v => do
    let r ← toRegexE p [] ['$'] true
    let rep ← evalText R ctx s
    .ok (R.replaceAll r (vvIntoString v) (.str rep))
  | .upperOnce p, v => do
    let r ← toRegexE p [] [] true
    .ok (R.replaceOnce r (vvIntoString v) .upper)
  | .upperAll p, v => do
    let r ← toRegexE p [] [] true
    .ok (R.replaceAll r (vvIntoString v) .upper)
  | .lowerOnce p, v => do
    let r ← toRegexE p [] [] true
    .ok (R.replaceOnce r (vvIntoString v) .lower)
  | .lowerAll p, v => do
    let r ← toRegexE p [] [] true
    .ok (R.replaceAll r (vvIntoString v) .lower)
  | .errorOnUnset t, v =>
    if vvIsEmpty v then do
      let m ← evalText R ctx t
      .error (.unset m)
    else .ok (vvIntoString v)
  | .length, v => .ok (natToChars (vvLen v))
  | .whenUnset t, v =>
    if vvIsEmpty v then evalText R ctx t else .ok (vvIntoString v)
  | .whenSet t, v =>
    if !vvIsEmpty v then evalText R ctx t else .ok (vvIntoString v)

end

/-- `eval_array_element` in `eval.rs`: a splice appends the referenced
variable's current value coerced to a list (missing names are empty); a
text element appends its single evaluated string. -/
def evalArrayElement (R : RegexOracle) (ctx : Ctx) :
    AArrayElement → Except EvalErr (List Str)
  | .arrayInclusion name => .ok (vvIntoArray ((ctxGet ctx name).getD (VV.str [])))
  | .text t => (evalText R ctx t).map (fun s => [s])

/-- The element loop of `eval_variable_value`. -/
def evalElements (R : RegexOracle) (ctx : Ctx) :
    List AArrayElement → Except EvalErr (List Str)
  | [] => .ok []
  | e :: es => do
    let vs ← evalArrayElement R ctx e
    let rest ← evalElements R ctx es
    .ok (vs ++ rest)

/-- `eval_variable_value` in `eval.rs`. -/
def evalValue (R : RegexOracle) (ctx : Ctx) : AValue → Except EvalErr VV
  | .str t => (evalText R ctx t).map VV.str
  | .array els => (evalElements R ctx els).map VV.array

/-- `eval_variable_def` in `eval.rs`: evaluate the value against the
current context and store it under the name. -/
def evalDef (R : RegexOracle) (ctx : Ctx) (d : ADef) : Except EvalErr Ctx :=
  (evalValue R ctx d.value).map (fun v => ctxInsert ctx d.name v)

/-- `eval_ast` in `eval.rs`: a single pass in declaration order. -/
def evalAst (R : RegexOracle) (ctx : Ctx) : AAst → Except EvalErr Ctx
  | [] => .ok ctx
  | d :: ds => do
    let ctx' ← evalDef R ctx d
    evalAst R ctx' ds

/-- `ApmlError` from `apml/mod.rs`. -/
inductive ApmlErr where
  | parse (e : ParseErr)
  | emit (e : EmitError)
  | eval (e : EvalErr)
deriving DecidableEq

/-- Parse then emit (`ApmlContext::eval_lst` without evaluation). -/
def emitSource (s : Str) : Except ApmlErr AAst :=
  match apmlParse s with
  | .error e => .error (.parse e)
  | .ok lst =>
    match emitAst lst with
    | .error e => .error (.emit e)
    | .ok ast => .ok ast

/-- `ApmlContext::eval_source` in `apml/mod.rs`: parse, emit, evaluate. -/
def evalSource (R : RegexOracle) (s : Str) : Except ApmlErr Ctx :=
  match emitSource s with
  | .error e => .error e
  | .ok ast =>
    match evalAst R [] ast with
    | .error e => .error (.eval e)
    | .ok ctx => .ok ctx

end Apml

namespace Apml

/-! ## The structural editor (`apml/editor.rs`) -/

/-- A token is a newline. -/
def isNewlineTok : LToken → Bool
  | .newline => true
  | _ => false

/-- A token is a comment. -/
def isCommentTok : LToken → Bool
  | .comment _ => true
  | _ => false

/-- A token is a variable definition. -/
def isVarTok : LToken → Bool
  | .var _ => true
  | _ => false

def findVarIndexAux (name : Str) : Nat → Lst → Option Nat
  | _, [] => none
  | i, .var d :: rest =>
    if d.name = name then some i else findVarIndexAux name (i + 1) rest
  | i, _ :: rest => findVarIndexAux name (i + 1) rest

/-- `ApmlEditor::find_var_index` in `editor.rs`: the index of the first
variable-definition token with the given name. -/
def findVarIndex (ts : Lst) (name : Str) : Option Nat :=
  findVarIndexAux name 0 ts

/-- The backward comment-absorbing loop of `ApmlEditor::remove_var`:
while the tokens just before `start` are `newline, comment, newline`,
move `start` back over the `comment, newline` pair.  The loop moves back
two positions a time, so `start` bounds its iteration count. -/
def scanBackAux (ts : Lst) : Nat → Nat → Nat
  | 0, start => start
  | fuel + 1, start =>
    if (match ts.get? (start - 1) with | some .newline => true | _ => false)
        && (match ts.get? (start - 2) with | some (.comment _) => true | _ => false)
        && (match ts.get? (start - 3) with | some .newline => true | _ => false)
    then scanBackAux ts fuel (start - 2)
    else start

/-- `ApmlEditor::remove_var` in `editor.rs`: remove the definition at
`index` together with the rest of its line up to and including the next
newline; when the token two positions earlier is a comment and the
following line holds no other definition, also absorb the preceding
orphaned `comment, newline` pairs.  (The look-back guards carry an
explicit `2 ≤ index` bound where the source's unchecked `index - 2`
would go out of range.) -/
def removeVar (ts : Lst) (index : Nat) : Lst :=
  let after := ((ts.drop index).takeWhile (fun t => !isNewlineTok t)).length
  let start :=
    if (decide (2 ≤ index) &&
        (match ts.get? (index - 2) with | some (.comment _) => true | _ => false)) then
      let nextLine :=
        (((ts.drop index).dropWhile (fun t => !isNewlineTok t)).drop 1).takeWhile
          (fun t => !isNewlineTok t)
      if nextLine.any isVarTok then index
      else scanBackAux ts index index
    else index
  ts.take start ++ ts.drop (index + after + 1)

/-! ## Slot-blocking characterizations for the emitters

Independent descriptions of when the emitters' statement slots reject a
token: the root slot is blocked when the current line (the tokens since
the last newline) already holds a comment or a definition; the array slot
is blocked when the current line holds a comment or ends directly with an
element. -/

/-- The current line of a root prefix, in reverse order. -/
def lineRev (pre : List LToken) : List LToken :=
  pre.reverse.takeWhile (fun t => !isNewlineTok t)

/-- The root slot after `pre` is blocked for a definition (with `b` the
blocking carried into the line from the initial state). -/
def rootBlocked (b : Bool) (pre : List LToken) : Bool :=
  (lineRev pre).any (fun t => isCommentTok t || isVarTok t) ||
    (b && !(pre.any isNewlineTok))

/-- An array token is a newline. -/
def isNewlineA : LArrayToken → Bool
  | .newline => true
  | _ => false

/-- An array token is a comment. -/
def isCommentA : LArrayToken → Bool
  | .comment _ => true
  | _ => false

/-- An array token is an element. -/
def isElementA : LArrayToken → Bool
  | .element _ => true
  | _ => false

/-- The current line of an array prefix, in reverse order. -/
def lineRevA (pre : List LArrayToken) : List LArrayToken :=
  pre.reverse.takeWhile (fun t => !isNewlineA t)

/-- The array slot after `pre` is blocked for an element, starting from
slot state `m`: the line holds a comment, or ends with an element, or no
newline has occurred and the initial state already blocks (a pending
newline always blocks; a pending delimiter blocks only until any token
of the line appears, since a space resets it). -/
def arrBlocked (m : SlotState) (pre : List LArrayToken) : Bool :=
  (lineRevA pre).any isCommentA ||
    (match (lineRevA pre).head? with
      | some t => isElementA t
      | none => false) ||
    (!(pre.any isNewlineA) &&
      (match m with
        | .needNewline => true
        | .needDelimiter => (lineRevA pre).isEmpty
        | .ready => false))

/-- `Except.isOk`. -/
def isOkE {ε α : Type} : Except ε α → Bool
  | .ok _ => true
  | .error _ => false

/-! ## Evaluation fragments for the failure analysis

`tameWord eu w` holds when the word uses only the conditional modifiers:
none, length, `:-`, `:+`, and — when `eu` is set — `:?`; their texts are
recursively tame.  On this fragment evaluation never touches patterns or
substrings. -/

mutual

def tameWord (eu : Bool) : AWord → Bool
  | .literal _ => true
  | .subcommand _ => true
  | .varRef (.mk _ none) => true
  | .varRef (.mk _ (some m)) => tameMod eu m

def tameMod (eu : Bool) : AModifier → Bool
  | .length => true
  | .whenUnset t => tameText eu t
  | .whenSet t => tameText eu t
  | .errorOnUnset t => eu && tameText eu t
  | _ => false

def tameText (eu : Bool) : AText → Bool
  | [] => true
  | w :: ws => tameWord eu w && tameText eu ws

end

def tameElement (eu : Bool) : AArrayElement → Bool
  | .arrayInclusion _ => true
  | .text t => tameText eu t

def tameElements (eu : Bool) : List AArrayElement → Bool
  | [] => true
  | e :: es => tameElement eu e && tameElements eu es

def tameValue (eu : Bool) : AValue → Bool
  | .str t => tameText eu t
  | .array els => tameElements eu els

def tameAst (eu : Bool) : AAst → Bool
  | [] => true
  | d :: ds => tameValue eu d.value && tameAst eu ds

mutual

/-- Whether a word contains an error-on-unset (`:?`) modifier anywhere. -/
def wordHasEU : AWord → Bool
  | .varRef (.mk _ (some m)) => modHasEU m
  | _ => false

def modHasEU : AModifier → Bool
  | .errorOnUnset _ => true
  | .whenUnset t => textHasEU t
  | .whenSet t => textHasEU t
  | .replaceOnce _ s => textHasEU s
  | .replaceAll _ s => textHasEU s
  | .replacePre _ s => textHasEU s
  | .replaceSuf _ s => textHasEU s
  | _ => false

def textHasEU : AText → Bool
  | [] => false
  | w :: ws => wordHasEU w || textHasEU ws

end

def elementHasEU : AArrayElement → Bool
  | .arrayInclusion _ => false
  | .text t => textHasEU t

def elementsHasEU : List AArrayElement → Bool
  | [] => false
  | e :: es => elementHasEU e || elementsHasEU es

def valueHasEU : AValue → Bool
  | .str t => textHasEU t
  | .array els => elementsHasEU els

/-- Whether an AST contains an error-on-unset (`:?`) modifier anywhere. -/
def astHasEU : AAst → Bool
  | [] => false
  | d :: ds => valueHasEU d.value || astHasEU ds

end Apml

namespace Apml

/-! # Theorems

First the generic combinator facts, then the grammar-wide invariants,
then the emitters' and evaluator's characterizations, and finally the
claims. -/

theorem suffixP_pmap {α β : Type} (f : α → β) (p : P α) (h : SuffixP p) :
    SuffixP (pmap f p) := by
  intro i r x hp
  simp only [pmap, Option.map_eq_some'] at hp
  obtain ⟨⟨r', a⟩, hpa, he⟩ := hp
  cases he
  exact h i r' a hpa

theorem suffixP_palt {α : Type} (p q : P α) (hp : SuffixP p) (hq : SuffixP q) :
    SuffixP (palt p q) := by
  intro i r x h
  simp only [palt] at h
  cases hpi : p i with
  | some v => rw [hpi] at h; cases h; exact hp i _ _ hpi
  | none => rw [hpi] at h; exact hq i r x h

theorem suffixP_pseq {α β : Type} (p : P α) (q : P β) (hp : SuffixP p) (hq : SuffixP q) :
    SuffixP (pseq p q) := by
  intro i r x h
  simp only [pseq, Option.bind_eq_some, Option.map_eq_some'] at h
  obtain ⟨⟨r1, a⟩, hpi, ⟨r2, b⟩, hqi, he⟩ := h
  cases he
  exact (hq r1 _ _ hqi).trans (hp i _ _ hpi)

theorem suffixP_ppre {α β : Type} (p : P α) (q : P β) (hp : SuffixP p) (hq : SuffixP q) :
    SuffixP (ppre p q) :=
  suffixP_pmap _ _ (suffixP_pseq p q hp hq)

theorem suffixP_pterm {α β : Type} (p : P α) (q : P β) (hp : SuffixP p) (hq : SuffixP q) :
    SuffixP (pterm p q) :=
  suffixP_pmap _ _ (suffixP_pseq p q hp hq)

theorem suffixP_pdelim {α β γ : Type} (l : P α) (m : P β) (r : P γ)
    (hl : SuffixP l) (hm : SuffixP m) (hr : SuffixP r) :
    SuffixP (pdelim l m r) :=
  suffixP_pmap _ _ (suffixP_pseq _ _ (suffixP_pseq _ _ hl hm) hr)

theorem suffixP_popt {α : Type} (p : P α) (hp : SuffixP p) : SuffixP (popt p) := by
  intro i r x h
  simp only [popt] at h
  cases hpi : p i with
  | some v => rw [hpi] at h; cases h; exact hp i _ _ hpi
  | none => rw [hpi] at h; cases h; exact List.suffix_rfl

theorem suffixP_pchar (c : Char) : SuffixP (pchar c) := by
  intro i r x h
  cases i with
  | nil => exact absurd h (by simp [pchar])
  | cons c' rest =>
    simp only [pchar] at h
    by_cases hc : c' = c
    · simp only [hc, if_true] at h
      cases h
      exact List.suffix_cons _ _
    · simp [hc] at h

theorem suffixP_panychar : SuffixP panychar := by
  intro i r x h
  cases i with
  | nil => exact absurd h (by simp [panychar])
  | cons c rest =>
    simp only [panychar] at h
    cases h
    exact List.suffix_cons _ _

theorem suffixP_psat (f : Char → Bool) : SuffixP (psat f) := by
  intro i r x h
  cases i with
  | nil => exact absurd h (by simp [psat])
  | cons c rest =>
    simp only [psat] at h
    by_cases hc : f c
    · simp only [hc, if_true] at h
      cases h
      exact List.suffix_cons _ _
    · simp [hc] at h

theorem suffixP_ptag (t : Str) : SuffixP (ptag t) := by
  intro i r x h
  simp only [ptag] at h
  by_cases hp : t.isPrefixOf i
  · simp [hp] at h
    cases h.1
    exact List.drop_suffix t.length i
  · simp [hp] at h

theorem suffixP_ptakeWhile (f : Char → Bool) : SuffixP (ptakeWhile f) := by
  intro i r x h
  simp only [ptakeWhile] at h
  cases h
  exact List.dropWhile_suffix f

theorem suffixP_ptakeWhile1 (f : Char → Bool) : SuffixP (ptakeWhile1 f) := by
  intro i r x h
  simp only [ptakeWhile1] at h
  cases htw : i.takeWhile f with
  | nil => rw [htw] at h; exact absurd h (by simp)
  | cons c cs =>
    rw [htw] at h
    cases h
    exact List.dropWhile_suffix f

theorem suffixP_ptakeTill (f : Char → Bool) : SuffixP (ptakeTill f) :=
  suffixP_ptakeWhile _

theorem suffixP_pmany0 {α : Type} (fuel : Nat) (p : P α) (hp : SuffixP p) :
    SuffixP (pmany0 fuel p) := by
  induction fuel with
  | zero => intro i r x h; simp only [pmany0] at h; cases h; exact List.suffix_rfl
  | succ n ih =>
    intro i r x h
    simp only [pmany0] at h
    cases hpi : p i with
    | none => rw [hpi] at h; cases h; exact List.suffix_rfl
    | some v =>
      obtain ⟨r1, a⟩ := v
      rw [hpi] at h
      by_cases hlen : r1.length = i.length
      · simp [hlen] at h
      · simp only [hlen, if_false] at h
        cases hm : pmany0 n p r1 with
        | none => rw [hm] at h; exact absurd h (by simp)
        | some w =>
          obtain ⟨r2, as_⟩ := w
          rw [hm] at h
          cases h
          exact (ih r1 _ _ hm).trans (hp i _ _ hpi)

theorem suffixP_pmany1 {α : Type} (fuel : Nat) (p : P α) (hp : SuffixP p) :
    SuffixP (pmany1 fuel p) :=
  suffixP_pmap _ _ (suffixP_pseq _ _ hp (suffixP_pmany0 fuel p hp))

theorem suffixP_none {α : Type} : SuffixP (fun _ : Str => (none : Option (Str × α))) := by
  intro i r x h
  exact absurd h (by simp)

theorem progress_none {α : Type} : ProgressP (fun _ : Str => (none : Option (Str × α))) := by
  intro i r x h
  exact absurd h (by simp)

theorem progress_pmap {α β : Type} (f : α → β) (p : P α) (h : ProgressP p) :
    ProgressP (pmap f p) := by
  intro i r x hp
  simp only [pmap, Option.map_eq_some'] at hp
  obtain ⟨⟨r', a⟩, hpa, he⟩ := hp
  cases he
  exact h i r' a hpa

theorem progress_palt {α : Type} (p q : P α) (hp : ProgressP p) (hq : ProgressP q) :
    ProgressP (palt p q) := by
  intro i r x h
  simp only [palt] at h
  cases hpi : p i with
  | some v => rw [hpi] at h; cases h; exact hp i _ _ hpi
  | none => rw [hpi] at h; exact hq i r x h

theorem progress_pseq_left {α β : Type} (p : P α) (q : P β)
    (hp : ProgressP p) (hq : SuffixP q) : ProgressP (pseq p q) := by
  intro i r x h
  simp only [pseq, Option.bind_eq_some, Option.map_eq_some'] at h
  obtain ⟨⟨r1, a⟩, hpi, ⟨r2, b⟩, hqi, he⟩ := h
  cases he
  exact Nat.lt_of_le_of_lt (hq r1 _ _ hqi).length_le (hp i _ _ hpi)

theorem progress_pseq_right {α β : Type} (p : P α) (q : P β)
    (hp : SuffixP p) (hq : ProgressP q) : ProgressP (pseq p q) := by
  intro i r x h
  simp only [pseq, Option.bind_eq_some, Option.map_eq_some'] at h
  obtain ⟨⟨r1, a⟩, hpi, ⟨r2, b⟩, hqi, he⟩ := h
  cases he
  exact Nat.lt_of_lt_of_le (hq r1 _ _ hqi) (hp i _ _ hpi).length_le

theorem progress_ppre {α β : Type} (p : P α) (q : P β)
    (hp : ProgressP p) (hq : SuffixP q) : ProgressP (ppre p q) :=
  progress_pmap _ _ (progress_pseq_left p q hp hq)

theorem progress_pchar (c : Char) : ProgressP (pchar c) := by
  intro i r x h
  cases i with
  | nil => exact absurd h (by simp [pchar])
  | cons c' rest =>
    simp only [pchar] at h
    by_cases hc : c' = c
    · simp only [hc, if_true] at h
      cases h
      simp
    · simp [hc] at h

theorem progress_ptakeWhile1 (f : Char → Bool) : ProgressP (ptakeWhile1 f) := by
  intro i r x h
  cases i with
  | nil => exact absurd h (by simp [ptakeWhile1, List.takeWhile])
  | cons c cs =>
    simp only [ptakeWhile1] at h
    by_cases hc : f c
    · rw [List.takeWhile_cons, if_pos hc] at h
      simp only at h
      rw [List.dropWhile_cons, if_pos hc] at h
      cases h
      exact Nat.lt_of_le_of_lt (List.dropWhile_suffix f).length_le (by simp)
    · rw [List.takeWhile_cons, if_neg hc] at h
      exact absurd h (by simp)

theorem progress_ptag (t : Str) (ht : t ≠ []) : ProgressP (ptag t) := by
  intro i r x h
  simp only [ptag] at h
  by_cases hp : t.isPrefixOf i
  · simp only [hp, if_true] at h
    cases h
    have hpre : t <+: i := by
      rw [← List.isPrefixOf_iff_prefix]
      exact hp
    have h1 : 1 ≤ t.length := by
      cases t with
      | nil => exact absurd rfl ht
      | cons a l => simp
    have h2 : t.length ≤ i.length := hpre.length_le
    simp only [List.length_drop]
    omega
  · simp [hp] at h

theorem suffixP_pOp : SuffixP pOp :=
  suffixP_palt _ _ (suffixP_pmap _ _ (suffixP_ptag _)) (suffixP_pmap _ _ (suffixP_pchar _))

theorem progress_pOp : ProgressP pOp :=
  progress_palt _ _ (progress_pmap _ _ (progress_ptag _ (by simp)))
    (progress_pmap _ _ (progress_pchar _))

theorem suffixP_pVarName : SuffixP pVarName := suffixP_ptakeWhile1 _

theorem progress_pVarName : ProgressP pVarName := progress_ptakeWhile1 _

theorem suffixP_pSpacyChar : SuffixP pSpacyChar :=
  suffixP_palt _ _ (suffixP_pchar _) (suffixP_pchar _)

theorem suffixP_pNumber : SuffixP pNumber := suffixP_ptakeWhile1 _

theorem suffixP_pLiteralPart (cond : Char → Bool) : SuffixP (pLiteralPart cond) :=
  suffixP_palt _ _ (suffixP_pmap _ _ (suffixP_ptag _))
    (suffixP_palt _ _ (suffixP_pmap _ _ (suffixP_ppre _ _ (suffixP_pchar _) suffixP_panychar))
      (suffixP_pmap _ _ (suffixP_ptakeWhile1 _)))

/-- Every grammar parser leaves a suffix of its input. -/
theorem suffixP_grammar : ∀ fuel : Nat,
    SuffixP (pToken fuel) ∧ SuffixP (pVarDef fuel) ∧ SuffixP (pValue fuel) ∧
    SuffixP (pArrayToken fuel) ∧ (∀ cond, SuffixP (pTextUnit fuel cond)) ∧
    (∀ cond, SuffixP (pWord fuel cond)) ∧ SuffixP (pBracedExpansion fuel) ∧
    SuffixP (pModifier fuel) ∧ SuffixP (pModText fuel) ∧
    (∀ ex, SuffixP (pGlob fuel ex)) ∧ (∀ ex, SuffixP (pPatternPart fuel ex)) ∧
    SuffixP (pPatternList fuel) := by
  intro fuel
  induction fuel with
  | zero =>
    exact ⟨suffixP_none, suffixP_none, suffixP_none, suffixP_none, fun _ => suffixP_none,
      fun _ => suffixP_none, suffixP_none, suffixP_none, suffixP_none, fun _ => suffixP_none,
      fun _ => suffixP_none, suffixP_none⟩
  | succ n ih =>
    obtain ⟨hT, hV, hVal, hA, hTU, hW, hB, hM, hMT, hG, hPP, hPL⟩ := ih
    refine ⟨?_, ?_, ?_, ?_, ?_, ?_, ?_, ?_, ?_, ?_, ?_, ?_⟩
    · simp only [pToken]
      exact (suffixP_palt _ _ (suffixP_pmap _ _ suffixP_pSpacyChar) (suffixP_palt _ _ (suffixP_pmap _ _ (suffixP_pchar _)) (suffixP_palt _ _ (suffixP_pmap _ _ (suffixP_ppre _ _ (suffixP_pchar _) (suffixP_ptakeTill _))) (suffixP_pmap _ _ hV))))
    · simp only [pVarDef]
      exact (suffixP_pmap _ _ (suffixP_pseq _ _ (suffixP_pseq _ _ suffixP_pVarName suffixP_pOp) hVal))
    · simp only [pValue]
      exact (suffixP_palt _ _ (suffixP_pmap _ _ (suffixP_pdelim _ _ _ (suffixP_pchar _) (suffixP_pmany0 _ _ hA) (suffixP_pchar _))) (suffixP_pmap _ _ (suffixP_pmany0 _ _ (hTU _))))
    · simp only [pArrayToken]
      exact (suffixP_palt _ _ (suffixP_pmap _ _ suffixP_pSpacyChar) (suffixP_palt _ _ (suffixP_pmap _ _ (suffixP_pchar _)) (suffixP_palt _ _ (suffixP_pmap _ _ (suffixP_ppre _ _ (suffixP_pchar _) (suffixP_ptakeTill _))) (suffixP_pmap _ _ (suffixP_pmany1 _ _ (hTU _))))))
    · intro cond
      simp only [pTextUnit]
      exact (suffixP_palt _ _ (suffixP_pmap _ _ (suffixP_pdelim _ _ _ (suffixP_pchar _) (suffixP_ptakeWhile _) (suffixP_pchar _))) (suffixP_palt _ _ (suffixP_pmap _ _ (suffixP_pdelim _ _ _ (suffixP_pchar _) (suffixP_pmany0 _ _ (hW _)) (suffixP_pchar _))) (suffixP_pmap _ _ (suffixP_pmany1 _ _ (hW _)))))
    · intro cond
      simp only [pWord]
      exact (suffixP_palt _ _ (suffixP_pmap _ _ (suffixP_pdelim _ _ _ (suffixP_ptag _) hB (suffixP_pchar _))) (suffixP_palt _ _ (suffixP_pmap _ _ (suffixP_ppre _ _ (suffixP_pchar _) suffixP_pVarName)) (suffixP_palt _ _ (suffixP_pmap _ _ (suffixP_pdelim _ _ _ (suffixP_ptag _) (suffixP_pmany0 _ _ hA) (suffixP_pchar _))) (suffixP_pmap _ _ (suffixP_pmany1 _ _ (suffixP_pLiteralPart cond))))))
    · simp only [pBracedExpansion]
      exact (suffixP_palt _ _ (suffixP_pmap _ _ (suffixP_ppre _ _ (suffixP_pchar _) suffixP_pVarName)) (suffixP_pmap _ _ (suffixP_pseq _ _ suffixP_pVarName (suffixP_popt _ hM))))
    · simp only [pModifier]
      exact (suffixP_palt _ _ (suffixP_pmap _ _ (suffixP_ppre _ _ (suffixP_ptag _) (hG _))) (suffixP_palt _ _ (suffixP_pmap _ _ (suffixP_ppre _ _ (suffixP_pchar _) (hG _))) (suffixP_palt _ _ (suffixP_pmap _ _ (suffixP_ppre _ _ (suffixP_ptag _) (hG _))) (suffixP_palt _ _ (suffixP_pmap _ _ (suffixP_ppre _ _ (suffixP_pchar _) (hG _))) (suffixP_palt _ _ (suffixP_pmap _ _ (suffixP_ppre _ _ (suffixP_ptag _) (suffixP_pseq _ _ (hG _) (suffixP_popt _ (suffixP_ppre _ _ (suffixP_pchar _) hMT))))) (suffixP_palt _ _ (suffixP_pmap _ _ (suffixP_ppre _ _ (suffixP_ptag _) (suffixP_pseq _ _ (hG _) (suffixP_popt _ (suffixP_ppre _ _ (suffixP_pchar _) hMT))))) (suffixP_palt _ _ (suffixP_pmap _ _ (suffixP_ppre _ _ (suffixP_ptag _) (suffixP_pseq _ _ (hG _) (suffixP_popt _ (suffixP_ppre _ _ (suffixP_pchar _) hMT))))) (suffixP_palt _ _ (suffixP_pmap _ _ (suffixP_ppre _ _ (suffixP_pchar _) (suffixP_pseq _ _ (hG _) (suffixP_popt _ (suffixP_ppre _ _ (suffixP_pchar _) hMT))))) (suffixP_palt _ _ (suffixP_pmap _ _ (suffixP_ppre _ _ (suffixP_ptag _) (hG _))) (suffixP_palt _ _ (suffixP_pmap _ _ (suffixP_ppre _ _ (suffixP_pchar _) (hG _))) (suffixP_palt _ _ (suffixP_pmap _ _ (suffixP_ppre _ _ (suffixP_ptag _) (hG _))) (suffixP_palt _ _ (suffixP_pmap _ _ (suffixP_ppre _ _ (suffixP_pchar _) (hG _))) (suffixP_palt _ _ (suffixP_pmap _ _ (suffixP_ppre _ _ (suffixP_ptag _) hMT)) (suffixP_palt _ _ (suffixP_pmap _ _ (suffixP_ppre _ _ (suffixP_ptag _) hMT)) (suffixP_palt _ _ (suffixP_pmap _ _ (suffixP_ppre _ _ (suffixP_ptag _) hMT)) (suffixP_palt _ _ (suffixP_pmap _ _ (suffixP_ptag _)) (suffixP_palt _ _ (suffixP_pmap _ _ (suffixP_ptag _)) (suffixP_ppre _ _ (suffixP_pchar _) (suffixP_pmap _ _ (suffixP_pseq _ _ suffixP_pNumber (suffixP_popt _ (suffixP_ppre _ _ (suffixP_pchar _) suffixP_pNumber))))))))))))))))))))))
    · simp only [pModText]
      exact (suffixP_pmap _ _ (suffixP_pmany0 _ _ (hTU _)))
    · intro ex
      simp only [pGlob]
      exact (suffixP_pmany1 _ _ (hPP _))
    · intro ex
      simp only [pPatternPart]
      exact (suffixP_palt _ _ (suffixP_pmap _ _ (suffixP_ppre _ _ (suffixP_pchar _) suffixP_panychar)) (suffixP_palt _ _ (suffixP_pmap _ _ (suffixP_pdelim _ _ _ (suffixP_ptag _) hPL (suffixP_pchar _))) (suffixP_palt _ _ (suffixP_pmap _ _ (suffixP_pdelim _ _ _ (suffixP_ptag _) hPL (suffixP_pchar _))) (suffixP_palt _ _ (suffixP_pmap _ _ (suffixP_pdelim _ _ _ (suffixP_ptag _) hPL (suffixP_pchar _))) (suffixP_palt _ _ (suffixP_pmap _ _ (suffixP_pdelim _ _ _ (suffixP_ptag _) hPL (suffixP_pchar _))) (suffixP_palt _ _ (suffixP_pmap _ _ (suffixP_pdelim _ _ _ (suffixP_ptag _) hPL (suffixP_pchar _))) (suffixP_palt _ _ (suffixP_pmap _ _ (suffixP_pchar _)) (suffixP_palt _ _ (suffixP_pmap _ _ (suffixP_pchar _)) (suffixP_palt _ _ (suffixP_pmap _ _ (suffixP_pdelim _ _ _ (suffixP_pchar _) (suffixP_ptakeWhile1 _) (suffixP_pchar _))) (suffixP_pmap _ _ (suffixP_ptakeWhile1 _)))))))))))
    · simp only [pPatternList]
      exact (suffixP_pmany0 _ _ (suffixP_pterm _ _ (hG _) (suffixP_popt _ (suffixP_pchar _))))

/-- A variable definition always consumes input (its name is nonempty). -/
theorem progress_pVarDef : ∀ fuel, ProgressP (pVarDef fuel) := by
  intro fuel
  cases fuel with
  | zero => exact progress_none
  | succ n =>
    simp only [pVarDef]
    exact progress_pmap _ _
      (progress_pseq_left _ _ (progress_pseq_left _ _ progress_pVarName suffixP_pOp)
        ((suffixP_grammar n).2.2.1))

/-- A token always consumes input. -/
theorem progress_pToken : ∀ fuel, ProgressP (pToken fuel) := by
  intro fuel
  cases fuel with
  | zero => exact progress_none
  | succ n =>
    simp only [pToken]
    exact progress_palt _ _
      (progress_pmap _ _ (progress_palt _ _ (progress_pchar _) (progress_pchar _)))
      (progress_palt _ _ (progress_pmap _ _ (progress_pchar _))
        (progress_palt _ _
          (progress_pmap _ _ (progress_ppre _ _ (progress_pchar _) (suffixP_ptakeTill _)))
          (progress_pmap _ _ (progress_pVarDef n))))

/-- `many0` of a consuming parser cannot fail. -/
theorem pmany0_ne_none {α : Type} (fuel : Nat) (p : P α) (hp : ProgressP p) :
    ∀ i, pmany0 fuel p i ≠ none := by
  induction fuel with
  | zero => intro i; simp [pmany0]
  | succ n ih =>
    intro i
    simp only [pmany0]
    cases hpi : p i with
    | none => simp
    | some v =>
      obtain ⟨r, a⟩ := v
      have hlt := hp i r a hpi
      have hne : ¬ r.length = i.length := Nat.ne_of_lt hlt
      simp only [hne, if_false]
      cases hm : pmany0 n p r with
      | none => exact absurd hm (ih r)
      | some w => simp

/-- Byte lengths add over concatenation. -/
theorem blen_append (a b : Str) : blen (a ++ b) = blen a + blen b := by
  induction a with
  | nil => simp [blen]
  | cons c cs ih => simp [blen, ih]; omega

end Apml

namespace Apml

theorem ebind_ok {ε α β : Type} (a : α) (f : α → Except ε β) :
    (Except.ok a : Except ε α) >>= f = f a := rfl

theorem ebind_error {ε α β : Type} (e : ε) (f : α → Except ε β) :
    (Except.error e : Except ε α) >>= f = Except.error e := rfl

/-- Whenever parsing fails, the reported 1-based position is the UTF-8
byte length of the consumed prefix plus one: the input splits into the
consumed prefix and a nonempty unparsable rest, and the position points
one past the consumed bytes. -/
theorem parse_error_pos_is_byte_offset (s : Str) (pos : Nat)
    (h : apmlParse s = .error (.unexpectedSource pos)) :
    ∃ consumed rest, s = consumed ++ rest ∧ rest ≠ [] ∧ pos = blen consumed + 1 := by
  unfold apmlParse at h
  split at h
  case h_1 heq =>
    exact absurd heq (pmany0_ne_none _ _ (progress_pToken _) s)
  case h_2 rest tree heq =>
    split at h
    · exact absurd h (by simp)
    case isFalse hr =>
      simp only [Except.error.injEq, ParseErr.unexpectedSource.injEq] at h
      have hsuf : rest.IsSuffix s :=
        suffixP_pmany0 (apmlFuel s) (pToken (apmlFuel s))
          ((suffixP_grammar (apmlFuel s)).1) s rest tree heq
      obtain ⟨consumed, hc⟩ := hsuf
      refine ⟨consumed, rest, hc.symm, hr, ?_⟩
      rw [← h, ← hc, blen_append]
      omega

end Apml

namespace Apml

theorem takeWhile_rev_cons_all {α : Type} (f : α → Bool) (l : List α)
    (hall : ∀ x ∈ l, f x = true) (t : α) :
    (t :: l).reverse.takeWhile f = l.reverse ++ [t].takeWhile f := by
  have hself : l.reverse.takeWhile f = l.reverse :=
    List.takeWhile_eq_self_iff.mpr (fun x hx => hall x (List.mem_reverse.mp hx))
  rw [List.reverse_cons, List.takeWhile_append, hself, if_pos rfl]

theorem takeWhile_rev_cons_ex {α : Type} (f : α → Bool) (l : List α)
    (hex : ∃ x ∈ l, f x = false) (t : α) :
    (t :: l).reverse.takeWhile f = l.reverse.takeWhile f := by
  rw [List.reverse_cons, List.takeWhile_append, if_neg]
  intro hlen
  have heq : l.reverse.takeWhile f = l.reverse :=
    (List.takeWhile_prefix _).eq_of_length hlen
  obtain ⟨x, hx, hfx⟩ := hex
  have := List.takeWhile_eq_self_iff.mp heq x (List.mem_reverse.mpr hx)
  rw [hfx] at this
  cases this

theorem takeWhile_rev_all {α : Type} (f : α → Bool) (l : List α)
    (hall : ∀ x ∈ l, f x = true) :
    l.reverse.takeWhile f = l.reverse :=
  List.takeWhile_eq_self_iff.mpr (fun x hx => hall x (List.mem_reverse.mp hx))

theorem rootBlocked_nil (b : Bool) : rootBlocked b [] = b := by
  simp [rootBlocked, lineRev]

theorem lineRev_cons_none {l : List LToken} (hn : l.any isNewlineTok = false) (t : LToken) :
    lineRev (t :: l) = l.reverse ++ [t].takeWhile (fun x => !isNewlineTok x) := by
  unfold lineRev
  exact takeWhile_rev_cons_all _ l
    (fun x hx => by
      have := List.any_eq_false.mp hn x hx
      simp only [Bool.not_eq_true] at this
      simp [this]) t

theorem lineRev_cons_has {l : List LToken} (hn : l.any isNewlineTok = true) (t : LToken) :
    lineRev (t :: l) = lineRev l := by
  unfold lineRev
  refine takeWhile_rev_cons_ex _ l ?_ t
  obtain ⟨x, hx, hnl⟩ := List.any_eq_true.mp hn
  exact ⟨x, hx, by simp [hnl]⟩

theorem lineRev_of_none {l : List LToken} (hn : l.any isNewlineTok = false) :
    lineRev l = l.reverse := by
  unfold lineRev
  exact takeWhile_rev_all _ l
    (fun x hx => by
      have := List.any_eq_false.mp hn x hx
      simp only [Bool.not_eq_true] at this
      simp [this])

theorem rootBlocked_spacy (b : Bool) (c : Char) (l : List LToken) :
    rootBlocked b (.spacy c :: l) = rootBlocked b l := by
  unfold rootBlocked
  cases hn : l.any isNewlineTok with
  | true => simp [lineRev_cons_has hn, List.any_cons, isNewlineTok, hn]
  | false =>
    simp [lineRev_cons_none hn, lineRev_of_none hn, List.any_cons, isNewlineTok, hn,
      List.takeWhile, isCommentTok, isVarTok]

theorem rootBlocked_newline (b : Bool) (l : List LToken) :
    rootBlocked b (.newline :: l) = rootBlocked false l := by
  unfold rootBlocked
  cases hn : l.any isNewlineTok with
  | true => simp [lineRev_cons_has hn, List.any_cons, isNewlineTok, hn]
  | false =>
    simp [lineRev_cons_none hn, lineRev_of_none hn, List.any_cons, isNewlineTok, hn,
      List.takeWhile]

theorem rootBlocked_comment (b : Bool) (s : Str) (l : List LToken) :
    rootBlocked b (.comment s :: l) = rootBlocked true l := by
  unfold rootBlocked
  cases hn : l.any isNewlineTok with
  | true => simp [lineRev_cons_has hn, List.any_cons, isNewlineTok, hn]
  | false =>
    simp [lineRev_cons_none hn, lineRev_of_none hn, List.any_cons, isNewlineTok, hn,
      List.takeWhile, isCommentTok]

theorem rootBlocked_var (b : Bool) (d : LVarDef) (l : List LToken) :
    rootBlocked b (.var d :: l) = rootBlocked true l := by
  unfold rootBlocked
  cases hn : l.any isNewlineTok with
  | true => simp [lineRev_cons_has hn, List.any_cons, isNewlineTok, hn]
  | false =>
    simp [lineRev_cons_none hn, lineRev_of_none hn, List.any_cons, isNewlineTok, hn,
      List.takeWhile, isCommentTok, isVarTok]

end Apml

namespace Apml

/-- The root emitter reports a missing root delimiter exactly when some
variable-definition token sits on a line (the tokens since the last
newline, or since the start) that already holds a comment or another
definition — provided every definition in the stream emits successfully
on its own.  `b` carries whether the initial slot state is blocking. -/
theorem emitRoot_missing_iff :
    ∀ (ts : List LToken) (st : SlotState) (b : Bool),
    ((st = SlotState.ready) ↔ (b = false)) →
    (∀ d, LToken.var d ∈ ts → isOkE (emitVarDef d) = true) →
    ((emitRoot st ts = .error .missingRootElementDelimiter) ↔
      (∃ l₁ d l₂, ts = l₁ ++ LToken.var d :: l₂ ∧ rootBlocked b l₁ = true)) := by
  intro ts
  induction ts with
  | nil =>
    intro st b _ _
    constructor
    · intro h
      exact absurd h (by simp [emitRoot])
    · rintro ⟨l₁, d, l₂, heq, _⟩
      exact absurd heq (by simp)
  | cons t ts ih =>
    intro st b hb hvars
    have hvars' : ∀ d, LToken.var d ∈ ts → isOkE (emitVarDef d) = true :=
      fun d hd => hvars d (List.mem_cons_of_mem t hd)
    cases t with
    | spacy c =>
      rw [show emitRoot st (LToken.spacy c :: ts) = emitRoot st ts from rfl,
        ih st b hb hvars']
      constructor
      · rintro ⟨l₁, d, l₂, heq, hbl⟩
        exact ⟨LToken.spacy c :: l₁, d, l₂, by rw [heq, List.cons_append],
          by rw [rootBlocked_spacy]; exact hbl⟩
      · rintro ⟨l₁, d, l₂, heq, hbl⟩
        cases l₁ with
        | nil => simp at heq
        | cons h' l₁' =>
          rw [List.cons_append] at heq
          obtain ⟨hh, hts⟩ := List.cons.inj heq
          subst hh
          rw [rootBlocked_spacy] at hbl
          exact ⟨l₁', d, l₂, hts, hbl⟩
    | newline =>
      rw [show emitRoot st (LToken.newline :: ts) = emitRoot .ready ts from rfl,
        ih .ready false (by simp) hvars']
      constructor
      · rintro ⟨l₁, d, l₂, heq, hbl⟩
        exact ⟨LToken.newline :: l₁, d, l₂, by rw [heq, List.cons_append],
          by rw [rootBlocked_newline]; exact hbl⟩
      · rintro ⟨l₁, d, l₂, heq, hbl⟩
        cases l₁ with
        | nil => simp at heq
        | cons h' l₁' =>
          rw [List.cons_append] at heq
          obtain ⟨hh, hts⟩ := List.cons.inj heq
          subst hh
          rw [rootBlocked_newline] at hbl
          exact ⟨l₁', d, l₂, hts, hbl⟩
    | comment s =>
      rw [show emitRoot st (LToken.comment s :: ts) = emitRoot .needNewline ts from rfl,
        ih .needNewline true (by simp) hvars']
      constructor
      · rintro ⟨l₁, d, l₂, heq, hbl⟩
        exact ⟨LToken.comment s :: l₁, d, l₂, by rw [heq, List.cons_append],
          by rw [rootBlocked_comment]; exact hbl⟩
      · rintro ⟨l₁, d, l₂, heq, hbl⟩
        cases l₁ with
        | nil => simp at heq
        | cons h' l₁' =>
          rw [List.cons_append] at heq
          obtain ⟨hh, hts⟩ := List.cons.inj heq
          subst hh
          rw [rootBlocked_comment] at hbl
          exact ⟨l₁', d, l₂, hts, hbl⟩
    | var d =>
      by_cases hst : st = SlotState.ready
      · subst hst
        have hbf : b = false := hb.mp rfl
        subst hbf
        have hok := hvars d (List.mem_cons_self _ _)
        obtain ⟨a, ha⟩ : ∃ a, emitVarDef d = .ok a := by
          cases hvd : emitVarDef d with
          | ok a => exact ⟨a, rfl⟩
          | error e => rw [hvd] at hok; exact absurd hok (by simp [isOkE])
        rw [show emitRoot SlotState.ready (LToken.var d :: ts) =
          (emitVarDef d >>= fun a =>
            emitRoot SlotState.needDelimiter ts >>= fun rest =>
              Except.ok (a :: rest)) from rfl, ha, ebind_ok]
        have hih := ih .needDelimiter true (by simp) hvars'
        constructor
        · intro h
          cases hrec : emitRoot SlotState.needDelimiter ts with
          | ok rest => rw [hrec, ebind_ok] at h; exact absurd h (by simp)
          | error e =>
            rw [hrec, ebind_error] at h
            have he : e = EmitError.missingRootElementDelimiter := by
              cases h; rfl
            subst he
            obtain ⟨l₁', d', l₂, hts, hbl⟩ := hih.mp hrec
            exact ⟨LToken.var d :: l₁', d', l₂, by rw [hts, List.cons_append],
              by rw [rootBlocked_var]; exact hbl⟩
        · rintro ⟨l₁, d', l₂, heq, hbl⟩
          cases l₁ with
          | nil =>
            rw [rootBlocked_nil] at hbl
            cases hbl
          | cons h' l₁' =>
            rw [List.cons_append] at heq
            obtain ⟨hh, hts⟩ := List.cons.inj heq
            subst hh
            rw [rootBlocked_var] at hbl
            have hrec := hih.mpr ⟨l₁', d', l₂, hts, hbl⟩
            rw [hrec, ebind_error]
      · have hlhs : emitRoot st (LToken.var d :: ts) =
            .error .missingRootElementDelimiter := by
          cases st with
          | ready => exact absurd rfl hst
          | needDelimiter => rfl
          | needNewline => rfl
        have hbt : b = true := by
          cases b with
          | false => exact absurd (hb.mpr rfl) hst
          | true => rfl
        subst hbt
        rw [hlhs]
        constructor
        · intro _
          exact ⟨[], d, ts, rfl, by rw [rootBlocked_nil]⟩
        · intro _
          rfl

end Apml

namespace Apml

theorem lineRevA_cons_none {l : List LArrayToken} (hn : l.any isNewlineA = false)
    (t : LArrayToken) :
    lineRevA (t :: l) = l.reverse ++ [t].takeWhile (fun x => !isNewlineA x) := by
  unfold lineRevA
  exact takeWhile_rev_cons_all _ l
    (fun x hx => by
      have := List.any_eq_false.mp hn x hx
      simp only [Bool.not_eq_true] at this
      simp [this]) t

theorem lineRevA_cons_has {l : List LArrayToken} (hn : l.any isNewlineA = true)
    (t : LArrayToken) :
    lineRevA (t :: l) = lineRevA l := by
  unfold lineRevA
  refine takeWhile_rev_cons_ex _ l ?_ t
  obtain ⟨x, hx, hnl⟩ := List.any_eq_true.mp hn
  exact ⟨x, hx, by simp [hnl]⟩

theorem lineRevA_of_none {l : List LArrayToken} (hn : l.any isNewlineA = false) :
    lineRevA l = l.reverse := by
  unfold lineRevA
  exact takeWhile_rev_all _ l
    (fun x hx => by
      have := List.any_eq_false.mp hn x hx
      simp only [Bool.not_eq_true] at this
      simp [this])

theorem arrBlocked_nil (m : SlotState) :
    arrBlocked m [] =
      (match m with | SlotState.ready => false | _ => true) := by
  cases m <;> simp [arrBlocked, lineRevA]

theorem arrBlocked_spacy (m : SlotState) (c : Char) (l : List LArrayToken) :
    arrBlocked m (.spacy c :: l) =
      arrBlocked
        (match m with
          | SlotState.needNewline => SlotState.needNewline
          | _ => SlotState.ready) l := by
  cases hn : l.any isNewlineA with
  | true =>
    cases m <;>
      simp [arrBlocked, lineRevA_cons_has hn, List.any_cons, isNewlineA, hn]
  | false =>
    cases m <;> cases hrev : l.reverse <;>
      simp [arrBlocked, lineRevA_cons_none hn, lineRevA_of_none hn, hrev,
        List.any_cons, isNewlineA, hn, List.takeWhile, isCommentA, isElementA]

theorem arrBlocked_newline (m : SlotState) (l : List LArrayToken) :
    arrBlocked m (.newline :: l) = arrBlocked SlotState.ready l := by
  cases hn : l.any isNewlineA with
  | true =>
    cases m <;>
      simp [arrBlocked, lineRevA_cons_has hn, List.any_cons, isNewlineA, hn]
  | false =>
    cases m <;> cases hrev : l.reverse <;>
      simp [arrBlocked, lineRevA_cons_none hn, lineRevA_of_none hn, hrev,
        List.any_cons, isNewlineA, hn, List.takeWhile, isCommentA, isElementA]

theorem arrBlocked_comment (m : SlotState) (s : Str) (l : List LArrayToken) :
    arrBlocked m (.comment s :: l) = arrBlocked SlotState.needNewline l := by
  cases hn : l.any isNewlineA with
  | true =>
    cases m <;>
      simp [arrBlocked, lineRevA_cons_has hn, List.any_cons, isNewlineA, hn]
  | false =>
    cases m <;> cases hrev : l.reverse <;>
      simp [arrBlocked, lineRevA_cons_none hn, lineRevA_of_none hn, hrev,
        List.any_cons, isNewlineA, hn, List.takeWhile, isCommentA, isElementA]

theorem arrBlocked_element_ready (t : LText) (l : List LArrayToken) :
    arrBlocked SlotState.ready (.element t :: l) =
      arrBlocked SlotState.needDelimiter l := by
  cases hn : l.any isNewlineA with
  | true =>
    simp [arrBlocked, lineRevA_cons_has hn, List.any_cons, isNewlineA, hn]
  | false =>
    cases hrev : l.reverse <;>
      simp [arrBlocked, lineRevA_cons_none hn, lineRevA_of_none hn, hrev,
        List.any_cons, isNewlineA, hn, List.takeWhile, isCommentA, isElementA]

/-- The array emitter reports a missing array delimiter exactly when some
element token's line already holds a comment, or ends directly with a
previous element (no space, newline or other delimiter between the two)
— provided every element in the stream emits successfully on its own.
The initial slot state `st` blocks the first line as recorded by
`arrBlocked`. -/
theorem emitArr_missing_iff :
    ∀ (ts : List LArrayToken) (st : SlotState),
    (∀ t, LArrayToken.element t ∈ ts → isOkE (emitArrayElement (.element t)) = true) →
    ((emitArr st ts = .error .missingArrayElementDelimiter) ↔
      (∃ l₁ t l₂, ts = l₁ ++ LArrayToken.element t :: l₂ ∧ arrBlocked st l₁ = true)) := by
  intro ts
  induction ts with
  | nil =>
    intro st _
    constructor
    · intro h
      exact absurd h (by simp [emitArr])
    · rintro ⟨l₁, t, l₂, heq, _⟩
      exact absurd heq (by simp)
  | cons t ts ih =>
    intro st hels
    have hels' : ∀ t, LArrayToken.element t ∈ ts → isOkE (emitArrayElement (.element t)) = true :=
      fun t ht => hels t (List.mem_cons_of_mem _ ht)
    cases t with
    | spacy c =>
      have hred : emitArr st (LArrayToken.spacy c :: ts) =
          emitArr
            (match st with
              | SlotState.needNewline => SlotState.needNewline
              | _ => SlotState.ready) ts := by
        cases st <;> rfl
      rw [hred, ih _ hels']
      constructor
      · rintro ⟨l₁, t', l₂, heq, hbl⟩
        exact ⟨LArrayToken.spacy c :: l₁, t', l₂, by rw [heq, List.cons_append],
          by rw [arrBlocked_spacy]; exact hbl⟩
      · rintro ⟨l₁, t', l₂, heq, hbl⟩
        cases l₁ with
        | nil => simp at heq
        | cons h' l₁' =>
          rw [List.cons_append] at heq
          obtain ⟨hh, hts⟩ := List.cons.inj heq
          subst hh
          rw [arrBlocked_spacy] at hbl
          exact ⟨l₁', t', l₂, hts, hbl⟩
    | newline =>
      rw [show emitArr st (LArrayToken.newline :: ts) = emitArr .ready ts from rfl,
        ih .ready hels']
      constructor
      · rintro ⟨l₁, t', l₂, heq, hbl⟩
        exact ⟨LArrayToken.newline :: l₁, t', l₂, by rw [heq, List.cons_append],
          by rw [arrBlocked_newline]; exact hbl⟩
      · rintro ⟨l₁, t', l₂, heq, hbl⟩
        cases l₁ with
        | nil => simp at heq
        | cons h' l₁' =>
          rw [List.cons_append] at heq
          obtain ⟨hh, hts⟩ := List.cons.inj heq
          subst hh
          rw [arrBlocked_newline] at hbl
          exact ⟨l₁', t', l₂, hts, hbl⟩
    | comment s =>
      rw [show emitArr st (LArrayToken.comment s :: ts) = emitArr .needNewline ts from rfl,
        ih .needNewline hels']
      constructor
      · rintro ⟨l₁, t', l₂, heq, hbl⟩
        exact ⟨LArrayToken.comment s :: l₁, t', l₂, by rw [heq, List.cons_append],
          by rw [arrBlocked_comment]; exact hbl⟩
      · rintro ⟨l₁, t', l₂, heq, hbl⟩
        cases l₁ with
        | nil => simp at heq
        | cons h' l₁' =>
          rw [List.cons_append] at heq
          obtain ⟨hh, hts⟩ := List.cons.inj heq
          subst hh
          rw [arrBlocked_comment] at hbl
          exact ⟨l₁', t', l₂, hts, hbl⟩
    | element tx =>
      cases st with
      | ready =>
        have hok := hels tx (List.mem_cons_self _ _)
        obtain ⟨a, ha⟩ : ∃ a, emitArrayElement (.element tx) = .ok a := by
          cases hvd : emitArrayElement (.element tx) with
          | ok a => exact ⟨a, rfl⟩
          | error e => rw [hvd] at hok; exact absurd hok (by simp [isOkE])
        rw [show emitArr SlotState.ready (LArrayToken.element tx :: ts) =
          (emitArrayElement (.element tx) >>= fun a =>
            emitArr SlotState.needDelimiter ts >>= fun rest =>
              Except.ok (a :: rest)) from rfl, ha, ebind_ok]
        have hih := ih .needDelimiter hels'
        constructor
        · intro h
          cases hrec : emitArr SlotState.needDelimiter ts with
          | ok rest => rw [hrec, ebind_ok] at h; exact absurd h (by simp)
          | error e =>
            rw [hrec, ebind_error] at h
            have he : e = EmitError.missingArrayElementDelimiter := by
              cases h; rfl
            subst he
            obtain ⟨l₁', t', l₂, hts, hbl⟩ := hih.mp hrec
            exact ⟨LArrayToken.element tx :: l₁', t', l₂, by rw [hts, List.cons_append],
              by rw [arrBlocked_element_ready]; exact hbl⟩
        · rintro ⟨l₁, t', l₂, heq, hbl⟩
          cases l₁ with
          | nil =>
            rw [arrBlocked_nil] at hbl
            cases hbl
          | cons h' l₁' =>
            rw [List.cons_append] at heq
            obtain ⟨hh, hts⟩ := List.cons.inj heq
            subst hh
            rw [arrBlocked_element_ready] at hbl
            have hrec := hih.mpr ⟨l₁', t', l₂, hts, hbl⟩
            rw [hrec, ebind_error]
      | needDelimiter =>
        constructor
        · intro _
          exact ⟨[], tx, ts, rfl, by rw [arrBlocked_nil]⟩
        · intro _
          rfl
      | needNewline =>
        constructor
        · intro _
          exact ⟨[], tx, ts, rfl, by rw [arrBlocked_nil]⟩
        · intro _
          rfl

end Apml

namespace Apml

mutual

/-- On the conditional fragment without `:?`, word evaluation always
succeeds. -/
theorem tameWord_ok (R : RegexOracle) (ctx : Ctx) (w : AWord)
    (h : tameWord false w = true) : isOkE (evalWord R ctx w) = true := by
  cases w with
  | literal s => rfl
  | subcommand s => rfl
  | varRef e =>
    obtain ⟨n, mo⟩ := e
    cases mo with
    | none => rfl
    | some m =>
      cases m with
      | length => rfl
      | whenUnset t =>
        simp only [evalWord, applyExpansionModifier]
        cases vvIsEmpty ((ctxGet ctx n).getD (VV.str [])) with
        | true =>
          simp only [if_true]
          exact tameText_ok R ctx t (by simpa [tameWord, tameMod] using h)
        | false => rfl
      | whenSet t =>
        simp only [evalWord, applyExpansionModifier]
        cases hvv : vvIsEmpty ((ctxGet ctx n).getD (VV.str [])) with
        | false =>
          simp only [hvv, Bool.not_false, if_true]
          exact tameText_ok R ctx t (by simpa [tameWord, tameMod] using h)
        | true => simp [hvv, isOkE]
      | errorOnUnset t => simp [tameWord, tameMod] at h
      | substring o l => simp [tameWord, tameMod] at h
      | stripShortestPre p => simp [tameWord, tameMod] at h
      | stripLongestPre p => simp [tameWord, tameMod] at h
      | stripShortestSuf p => simp [tameWord, tameMod] at h
      | stripLongestSuf p => simp [tameWord, tameMod] at h
      | replaceOnce p s => simp [tameWord, tameMod] at h
      | replaceAll p s => simp [tameWord, tameMod] at h
      | replacePre p s => simp [tameWord, tameMod] at h
      | replaceSuf p s => simp [tameWord, tameMod] at h
      | upperOnce p => simp [tameWord, tameMod] at h
      | upperAll p => simp [tameWord, tameMod] at h
      | lowerOnce p => simp [tameWord, tameMod] at h
      | lowerAll p => simp [tameWord, tameMod] at h

/-- On the conditional fragment without `:?`, text evaluation always
succeeds. -/
theorem tameText_ok (R : RegexOracle) (ctx : Ctx) (ws : AText)
    (h : tameText false ws = true) : isOkE (evalText R ctx ws) = true := by
  cases ws with
  | nil => rfl
  | cons w ws =>
    simp only [tameText, Bool.and_eq_true] at h
    have hw := tameWord_ok R ctx w h.1
    have hws := tameText_ok R ctx ws h.2
    simp only [evalText]
    cases hew : evalWord R ctx w with
    | error e => rw [hew] at hw; exact absurd hw (by simp [isOkE])
    | ok s =>
      rw [ebind_ok]
      cases hews : evalText R ctx ws with
      | error e => rw [hews] at hws; exact absurd hws (by simp [isOkE])
      | ok rest => rw [ebind_ok]; rfl

end

end Apml

namespace Apml

mutual

/-- On the conditional fragment, a failing word evaluation always fails
with an unset error (the `:?` error carrying its message). -/
theorem tameWord_err (R : RegexOracle) (ctx : Ctx) (w : AWord) (e : EvalErr)
    (h : tameWord true w = true) (he : evalWord R ctx w = .error e) :
    ∃ m, e = EvalErr.unset m := by
  cases w with
  | literal s => exact absurd he (by simp [evalWord])
  | subcommand s => exact absurd he (by simp [evalWord])
  | varRef ex =>
    obtain ⟨n, mo⟩ := ex
    cases mo with
    | none => exact absurd he (by simp [evalWord])
    | some m =>
      cases m with
      | length => exact absurd he (by simp [evalWord, applyExpansionModifier])
      | whenUnset t =>
        simp only [evalWord, applyExpansionModifier] at he
        cases hvv : vvIsEmpty ((ctxGet ctx n).getD (VV.str [])) with
        | true =>
          rw [hvv, if_pos rfl] at he
          exact tameText_err R ctx t e (by simpa [tameWord, tameMod] using h) he
        | false => rw [hvv] at he; exact absurd he (by simp)
      | whenSet t =>
        simp only [evalWord, applyExpansionModifier] at he
        cases hvv : vvIsEmpty ((ctxGet ctx n).getD (VV.str [])) with
        | false =>
          rw [hvv] at he
          simp only [Bool.not_false, if_true] at he
          exact tameText_err R ctx t e (by simpa [tameWord, tameMod] using h) he
        | true => rw [hvv] at he; exact absurd he (by simp)
      | errorOnUnset t =>
        simp only [evalWord, applyExpansionModifier] at he
        cases hvv : vvIsEmpty ((ctxGet ctx n).getD (VV.str [])) with
        | true =>
          rw [hvv, if_pos rfl] at he
          cases het : evalText R ctx t with
          | error e' =>
            rw [het, ebind_error] at he
            cases he
            exact tameText_err R ctx t e (by simpa [tameWord, tameMod] using h) het
          | ok msg =>
            rw [het, ebind_ok] at he
            cases he
            exact ⟨msg, rfl⟩
        | false => rw [hvv] at he; exact absurd he (by simp)
      | substring o l => simp [tameWord, tameMod] at h
      | stripShortestPre p => simp [tameWord, tameMod] at h
      | stripLongestPre p => simp [tameWord, tameMod] at h
      | stripShortestSuf p => simp [tameWord, tameMod] at h
      | stripLongestSuf p => simp [tameWord, tameMod] at h
      | replaceOnce p s => simp [tameWord, tameMod] at h
      | replaceAll p s => simp [tameWord, tameMod] at h
      | replacePre p s => simp [tameWord, tameMod] at h
      | replaceSuf p s => simp [tameWord, tameMod] at h
      | upperOnce p => simp [tameWord, tameMod] at h
      | upperAll p => simp [tameWord, tameMod] at h
      | lowerOnce p => simp [tameWord, tameMod] at h
      | lowerAll p => simp [tameWord, tameMod] at h

/-- On the conditional fragment, a failing text evaluation always fails
with an unset error. -/
theorem tameText_err (R : RegexOracle) (ctx : Ctx) (ws : AText) (e : EvalErr)
    (h : tameText true ws = true) (he : evalText R ctx ws = .error e) :
    ∃ m, e = EvalErr.unset m := by
  cases ws with
  | nil => exact absurd he (by simp [evalText])
  | cons w ws =>
    simp only [tameText, Bool.and_eq_true] at h
    simp only [evalText] at he
    cases hew : evalWord R ctx w with
    | error e' =>
      rw [hew, ebind_error] at he
      cases he
      exact tameWord_err R ctx w e h.1 hew
    | ok s =>
      rw [hew, ebind_ok] at he
      cases hews : evalText R ctx ws with
      | error e' =>
        rw [hews, ebind_error] at he
        cases he
        exact tameText_err R ctx ws e h.2 hews
      | ok rest => rw [hews, ebind_ok] at he; exact absurd he (by simp)

end

/-- Lifting the tame success and failure facts to array elements. -/
theorem tameElement_ok (R : RegexOracle) (ctx : Ctx) (el : AArrayElement)
    (h : tameElement false el = true) : isOkE (evalArrayElement R ctx el) = true := by
  cases el with
  | arrayInclusion n => rfl
  | text t =>
    simp only [evalArrayElement]
    have := tameText_ok R ctx t (by simpa [tameElement] using h)
    cases het : evalText R ctx t with
    | error e => rw [het] at this; exact absurd this (by simp [isOkE])
    | ok s => simp [het, isOkE, Except.map]

theorem tameElement_err (R : RegexOracle) (ctx : Ctx) (el : AArrayElement) (e : EvalErr)
    (h : tameElement true el = true) (he : evalArrayElement R ctx el = .error e) :
    ∃ m, e = EvalErr.unset m := by
  cases el with
  | arrayInclusion n => exact absurd he (by simp [evalArrayElement])
  | text t =>
    simp only [evalArrayElement] at he
    cases het : evalText R ctx t with
    | error e' =>
      rw [het] at he
      cases he
      exact tameText_err R ctx t e h het
    | ok s => rw [het] at he; exact absurd he (by simp [Except.map])

theorem tameElements_ok (R : RegexOracle) (ctx : Ctx) (els : List AArrayElement)
    (h : tameElements false els = true) : isOkE (evalElements R ctx els) = true := by
  induction els with
  | nil => rfl
  | cons el els ih =>
    simp only [tameElements, Bool.and_eq_true] at h
    have hel := tameElement_ok R ctx el h.1
    have hels := ih h.2
    simp only [evalElements]
    cases hee : evalArrayElement R ctx el with
    | error e => rw [hee] at hel; exact absurd hel (by simp [isOkE])
    | ok vs =>
      rw [ebind_ok]
      cases hes : evalElements R ctx els with
      | error e => rw [hes] at hels; exact absurd hels (by simp [isOkE])
      | ok rest => rw [ebind_ok]; rfl

theorem tameElements_err (R : RegexOracle) (ctx : Ctx) (els : List AArrayElement) (e : EvalErr)
    (h : tameElements true els = true) (he : evalElements R ctx els = .error e) :
    ∃ m, e = EvalErr.unset m := by
  induction els with
  | nil => exact absurd he (by simp [evalElements])
  | cons el els ih =>
    simp only [tameElements, Bool.and_eq_true] at h
    simp only [evalElements] at he
    cases hee : evalArrayElement R ctx el with
    | error e' =>
      rw [hee, ebind_error] at he
      cases he
      exact tameElement_err R ctx el e h.1 hee
    | ok vs =>
      rw [hee, ebind_ok] at he
      cases hes : evalElements R ctx els with
      | error e' =>
        rw [hes, ebind_error] at he
        cases he
        exact ih h.2 hes
      | ok rest => rw [hes, ebind_ok] at he; exact absurd he (by simp)

theorem tameValue_ok (R : RegexOracle) (ctx : Ctx) (v : AValue)
    (h : tameValue false v = true) : isOkE (evalValue R ctx v) = true := by
  cases v with
  | str t =>
    simp only [evalValue]
    have := tameText_ok R ctx t (by simpa [tameValue] using h)
    cases het : evalText R ctx t with
    | error e => rw [het] at this; exact absurd this (by simp [isOkE])
    | ok s => simp [het, isOkE, Except.map]
  | array els =>
    simp only [evalValue]
    have := tameElements_ok R ctx els (by simpa [tameValue] using h)
    cases hes : evalElements R ctx els with
    | error e => rw [hes] at this; exact absurd this (by simp [isOkE])
    | ok vs => simp [hes, isOkE, Except.map]

theorem tameValue_err (R : RegexOracle) (ctx : Ctx) (v : AValue) (e : EvalErr)
    (h : tameValue true v = true) (he : evalValue R ctx v = .error e) :
    ∃ m, e = EvalErr.unset m := by
  cases v with
  | str t =>
    simp only [evalValue] at he
    cases het : evalText R ctx t with
    | error e' =>
      rw [het] at he
      cases he
      exact tameText_err R ctx t e h het
    | ok s => rw [het] at he; exact absurd he (by simp [Except.map])
  | array els =>
    simp only [evalValue] at he
    cases hes : evalElements R ctx els with
    | error e' =>
      rw [hes] at he
      cases he
      exact tameElements_err R ctx els e h hes
    | ok vs => rw [hes] at he; exact absurd he (by simp [Except.map])

/-- On the conditional fragment without `:?`, whole-program evaluation
always succeeds. -/
theorem tameAst_ok (R : RegexOracle) :
    ∀ (ast : AAst) (ctx : Ctx), tameAst false ast = true →
    isOkE (evalAst R ctx ast) = true := by
  intro ast
  induction ast with
  | nil => intro ctx _; rfl
  | cons d ds ih =>
    intro ctx h
    simp only [tameAst, Bool.and_eq_true] at h
    simp only [evalAst]
    have hv := tameValue_ok R ctx d.value h.1
    cases hev : evalValue R ctx d.value with
    | error e =>
      rw [hev] at hv
      exact absurd hv (by simp [isOkE])
    | ok v =>
      rw [show evalDef R ctx d = (evalValue R ctx d.value).map (fun v => ctxInsert ctx d.name v)
        from rfl, hev]
      exact ih _ h.2

/-- On the conditional fragment, a failing whole-program evaluation
always fails with an unset error. -/
theorem tameAst_err (R : RegexOracle) :
    ∀ (ast : AAst) (ctx : Ctx) (e : EvalErr), tameAst true ast = true →
    evalAst R ctx ast = .error e → ∃ m, e = EvalErr.unset m := by
  intro ast
  induction ast with
  | nil => intro ctx e _ he; exact absurd he (by simp [evalAst])
  | cons d ds ih =>
    intro ctx e h he
    simp only [tameAst, Bool.and_eq_true] at h
    simp only [evalAst] at he
    rw [show evalDef R ctx d = (evalValue R ctx d.value).map (fun v => ctxInsert ctx d.name v)
      from rfl] at he
    cases hev : evalValue R ctx d.value with
    | error e' =>
      rw [hev] at he
      simp only [Except.map] at he
      rw [ebind_error] at he
      cases he
      exact tameValue_err R ctx d.value e h.1 hev
    | ok v =>
      rw [hev] at he
      simp only [Except.map] at he
      rw [ebind_ok] at he
      exact ih _ e h.2 he

end Apml

namespace Apml

/-! ## The claims -/

/-- C1: the round-trip identity fails on the code.  The extglob
pattern-list parser (`pattern_list` in `pattern.rs`) accepts and drops a
trailing `|` inside a group, while `Display for PatternList` re-serializes
the alternation without it: the accepted source `A=${A#?(a|b|)}`
re-serializes to `A=${A#?(a|b)}`, not to itself, contradicting the
byte-for-byte losslessness stated by the spec and by the LST module's own
documentation. -/
theorem c1_roundtrip_violation :
    (apmlParse "A=$\x7bA#?(a|b|)\x7d".data).map displayLst =
      .ok "A=$\x7bA#?(a|b)\x7d".data ∧
    "A=$\x7bA#?(a|b)\x7d".data ≠ "A=$\x7bA#?(a|b|)\x7d".data := by
  exact ⟨by decide, by decide⟩

/-- C2: append desugaring equivalence.  The two-definition text program
`NAME="a"; NAME+="b"` evaluates to the same variable map as `NAME="ab"`,
and `NAME=(a); NAME+=(b)` to the same map as `NAME=(a b)`; in general,
emission rewrites a `+=` definition into an assignment whose value is
prefixed with a self-reference (a plain variable word for texts, an
array splice for arrays), and evaluating such a prefix prepends the
current value's scalar coercion (for texts) or list coercion (for
arrays) to the rest. -/
theorem c2_append_desugar :
    (∀ R : RegexOracle,
      evalSource R "NAME=\"a\"\nNAME+=\"b\"".data = evalSource R "NAME=\"ab\"".data) ∧
    (∀ R : RegexOracle,
      evalSource R "NAME=(a)\nNAME+=(b)".data = evalSource R "NAME=(a b)".data) ∧
    (∀ (n : Str) (v : LValue) (r : AValue), emitValue v = .ok r →
      emitVarDef ⟨n, .append, v⟩ = .ok ⟨n, prependSelf n r⟩) ∧
    (∀ (R : RegexOracle) (ctx : Ctx) (n : Str) (ws : AText),
      evalText R ctx (AWord.varRef (.mk n none) :: ws) =
        (evalText R ctx ws).map
          (fun s => vvIntoString ((ctxGet ctx n).getD (VV.str [])) ++ s)) ∧
    (∀ (R : RegexOracle) (ctx : Ctx) (n : Str) (els : List AArrayElement),
      evalElements R ctx (.arrayInclusion n :: els) =
        (evalElements R ctx els).map
          (fun l => vvIntoArray ((ctxGet ctx n).getD (VV.str [])) ++ l)) := by
  refine ⟨fun R => rfl, fun R => rfl, ?_, ?_, ?_⟩
  · intro n v r h
    simp only [emitVarDef, h, ebind_ok]
  · intro R ctx n ws
    simp only [evalText, evalWord, ebind_ok]
    cases h : evalText R ctx ws with
    | error e => rfl
    | ok rest => rfl
  · intro R ctx n els
    simp only [evalElements, evalArrayElement, ebind_ok]
    cases h : evalElements R ctx els with
    | error e => rfl
    | ok rest => rfl

/-- Witness for C2: the third conjunct applied to an empty text value. -/
theorem c2_append_desugar_witness :
    emitValue (LValue.str (LText.mk [])) = .ok (AValue.str []) ∧
    emitVarDef ⟨"N".data, .append, LValue.str (LText.mk [])⟩ =
      .ok ⟨"N".data, prependSelf "N".data (AValue.str [])⟩ :=
  ⟨rfl, c2_append_desugar.2.2.1 "N".data (LValue.str (LText.mk [])) (AValue.str []) rfl⟩

/-- C3: substring modifier semantics.  At emission, a textual offset is
parsed from its trimmed text and a negative value is clamped to 0
(`max(offset, 0)`).  At evaluation, on the scalar coercion `s` of the
value, a positive length slices `[offset, offset+length)` with the end
clamped to the length of `s`; a negative length slices
`[offset, len(s)-|length|)`; an absent length slices `[offset, len(s))`;
each provided the byte indices are in range (a failing slice is the
source's panic).  In particular `"123"` with `:0:-1` gives `"12"` and
with `:1` gives `"23"`. -/
theorem c3_substring_semantics :
    (∀ (off : Str) (o : Int), parseIsize (trimChars off) = some o →
      emitModifier (.substring off none) = .ok (.substring (max o 0).toNat none)) ∧
    (∀ (R : RegexOracle) (ctx : Ctx) (off : Nat) (l : Int) (v : VV) (r : Str), 0 < l →
      byteSlice (vvIntoString v) off (min (off + l.toNat) (blen (vvIntoString v))) = some r →
      applyExpansionModifier R ctx (.substring off (some l)) v = .ok r) ∧
    (∀ (R : RegexOracle) (ctx : Ctx) (off : Nat) (l : Int) (v : VV) (r : Str), l < 0 →
      l.natAbs ≤ blen (vvIntoString v) →
      byteSlice (vvIntoString v) off (blen (vvIntoString v) - l.natAbs) = some r →
      applyExpansionModifier R ctx (.substring off (some l)) v = .ok r) ∧
    (∀ (R : RegexOracle) (ctx : Ctx) (off : Nat) (v : VV) (r : Str),
      byteSlice (vvIntoString v) off (blen (vvIntoString v)) = some r →
      applyExpansionModifier R ctx (.substring off none) v = .ok r) ∧
    (∀ (R : RegexOracle) (ctx : Ctx),
      applyExpansionModifier R ctx (.substring 0 (some (-1))) (VV.str "123".data) =
        .ok "12".data ∧
      applyExpansionModifier R ctx (.substring 1 none) (VV.str "123".data) =
        .ok "23".data) := by
  refine ⟨?_, ?_, ?_, ?_, fun R ctx => ⟨rfl, rfl⟩⟩
  · intro off o h
    simp only [emitModifier, h, ebind_ok]
  · intro R ctx off l v r hl hs
    simp only [applyExpansionModifier, if_pos hl, hs]
  · intro R ctx off l v r hl hla hs
    have hnl : ¬ 0 < l := by omega
    simp only [applyExpansionModifier, if_neg hnl, if_pos hla, hs]
  · intro R ctx off v r hs
    simp only [applyExpansionModifier, hs]

/-- Witness for C3: the clamp applied to the textual offset `-5`, and a
positive-length slice of `"abc"`. -/
theorem c3_substring_semantics_witness :
    (parseIsize (trimChars "-5".data) = some (-5) ∧
      emitModifier (.substring "-5".data none) = .ok (.substring (max (-5 : Int) 0).toNat none)) ∧
    ((0 : Int) < 2 ∧
      byteSlice (vvIntoString (VV.str "abc".data)) 0
        (min (0 + (2 : Int).toNat) (blen (vvIntoString (VV.str "abc".data)))) = some "ab".data ∧
      applyExpansionModifier trivOracle [] (.substring 0 (some 2)) (VV.str "abc".data) =
        .ok "ab".data) :=
  ⟨⟨rfl, c3_substring_semantics.1 "-5".data (-5) rfl⟩,
    ⟨by decide, rfl,
      c3_substring_semantics.2.1 trivOracle [] 0 2 (VV.str "abc".data) "ab".data
        (by decide) rfl⟩⟩

/-- Counterexample for C4: for the array value `(aa bb)` the length
modifier evaluates to `"2"`, the element count, whereas the claim
demands the string length of the scalar coercion `"aa bb"`, which is 5. -/
theorem c4_length_modifier_counterexample :
    applyExpansionModifier trivOracle [] AModifier.length (VV.array ["aa".data, "bb".data]) =
      .ok "2".data ∧
    blen (vvIntoString (VV.array ["aa".data, "bb".data])) = 5 ∧
    ("2".data : Str) ≠ natToChars 5 := by
  exact ⟨rfl, by decide, by decide⟩

/-- C4 (amended): the length modifier returns, as a decimal string,
`VariableValue::len` of the current value: the byte length for a scalar
and the element count for an array — never the length of the
space-joined coercion for arrays. -/
theorem c4_length_modifier_amended :
    ∀ (R : RegexOracle) (ctx : Ctx) (v : VV),
      applyExpansionModifier R ctx AModifier.length v = .ok (natToChars (vvLen v)) ∧
      (∀ s, vvLen (VV.str s) = blen s) ∧
      (∀ els, vvLen (VV.array els) = els.length) :=
  fun _ _ _ => ⟨rfl, fun _ => rfl, fun _ => rfl⟩

/-- Counterexample for C5: parsing `#é\naaa` fails at the trailing
`aaa`, whose first character is the fourth codepoint of the input (so a
1-based codepoint offset would be 4), but the reported position is 5,
the 1-based UTF-8 byte offset (`é` occupies two bytes). -/
theorem c5_parse_offset_counterexample :
    apmlParse "#é\naaa".data = .error (.unexpectedSource 5) ∧
    "#é\n".data ++ "aaa".data = "#é\naaa".data ∧
    "#é\n".data.length + 1 = 4 ∧ (5 : Nat) ≠ 4 := by
  exact ⟨rfl, by decide, by decide, by decide⟩

/-- C5 (amended): whenever parsing fails, the reported 1-based position
equals the UTF-8 byte length of the consumed prefix plus one (nom's
`Offset` is a byte distance), not a codepoint offset: the input splits
into the consumed prefix and a nonempty unparsable rest. -/
theorem c5_parse_offset_amended (s : Str) (pos : Nat)
    (h : apmlParse s = .error (.unexpectedSource pos)) :
    ∃ consumed rest, s = consumed ++ rest ∧ rest ≠ [] ∧ pos = blen consumed + 1 :=
  parse_error_pos_is_byte_offset s pos h

/-- Witness for C5 (amended) at the concrete input `#é\naaa`. -/
theorem c5_parse_offset_amended_witness :
    apmlParse "#é\naaa".data = .error (.unexpectedSource 5) ∧
    (∃ consumed rest, "#é\naaa".data = consumed ++ rest ∧ rest ≠ [] ∧
      5 = blen consumed + 1) :=
  ⟨rfl, c5_parse_offset_amended "#é\naaa".data 5 rfl⟩

end Apml

namespace Apml

/-- Counterexample for C6: `a=""\n# c\nb=""` has a newline between the
two variable definitions, yet emission still fails with
`MissingRootElementDelimiter`: the comment after the newline re-arms the
delimiter requirement, so "separated by at least one newline token" is
not sufficient. -/
theorem c6_delimiter_counterexample :
    emitAst [LToken.var ⟨"a".data, .assignment, .str (.mk [])⟩, LToken.newline,
      LToken.comment "c".data, LToken.var ⟨"b".data, .assignment, .str (.mk [])⟩] =
      .error .missingRootElementDelimiter ∧
    [LToken.var ⟨"a".data, .assignment, .str (.mk [])⟩, LToken.newline,
      LToken.comment "c".data,
      LToken.var ⟨"b".data, .assignment, .str (.mk [])⟩].get? 1 = some LToken.newline := by
  exact ⟨rfl, rfl⟩

/-- C6 (amended): assuming every variable definition in the token list
itself emits successfully, root emission fails with
`MissingRootElementDelimiter` exactly when some definition token is
preceded by a prefix whose trailing line (the tokens after its last
newline, or the whole prefix when it has no newline) contains a comment
or a variable definition; dually (with array elements and spacy tokens),
array-value emission fails with `MissingArrayElementDelimiter` exactly
when some element's trailing line contains a comment or another element;
and the two error kinds are distinct. -/
theorem c6_delimiter_amended :
    (∀ ts : Lst, (∀ d, LToken.var d ∈ ts → isOkE (emitVarDef d) = true) →
      ((emitAst ts = .error .missingRootElementDelimiter) ↔
        (∃ l₁ d l₂, ts = l₁ ++ LToken.var d :: l₂ ∧ rootBlocked false l₁ = true))) ∧
    (∀ toks : List LArrayToken,
      (∀ t, LArrayToken.element t ∈ toks → isOkE (emitArrayElement (.element t)) = true) →
      ((emitValue (LValue.array toks) = .error .missingArrayElementDelimiter) ↔
        (∃ l₁ t l₂, toks = l₁ ++ LArrayToken.element t :: l₂ ∧
          arrBlocked SlotState.ready l₁ = true))) ∧
    EmitError.missingRootElementDelimiter ≠ EmitError.missingArrayElementDelimiter := by
  refine ⟨?_, ?_, by decide⟩
  · intro ts h
    exact emitRoot_missing_iff ts SlotState.ready false ⟨fun _ => rfl, fun _ => rfl⟩ h
  · intro toks h
    have hiff := emitArr_missing_iff toks SlotState.ready h
    have hval : emitValue (LValue.array toks) =
        (emitArr SlotState.ready toks).map AValue.array := rfl
    constructor
    · intro he
      apply hiff.mp
      cases hea : emitArr SlotState.ready toks with
      | ok els =>
        rw [hval, hea] at he
        exact absurd he (by simp [Except.map])
      | error e =>
        rw [hval, hea] at he
        simp only [Except.map, Except.error.injEq] at he
        rw [he]
    · intro hex
      rw [hval, hiff.mpr hex]
      rfl

/-- Witness for C6 (amended): the root direction applied to a singleton
list holding one well-formed definition. -/
theorem c6_delimiter_amended_witness :
    (∀ d, LToken.var d ∈ ([LToken.var ⟨"x".data, .assignment, .str (.mk [])⟩] : Lst) →
      isOkE (emitVarDef d) = true) ∧
    ((emitAst [LToken.var ⟨"x".data, .assignment, .str (.mk [])⟩] =
        .error .missingRootElementDelimiter) ↔
      (∃ l₁ d l₂, ([LToken.var ⟨"x".data, .assignment, .str (.mk [])⟩] : Lst) =
        l₁ ++ LToken.var d :: l₂ ∧ rootBlocked false l₁ = true)) := by
  have h : ∀ d, LToken.var d ∈ ([LToken.var ⟨"x".data, .assignment, .str (.mk [])⟩] : Lst) →
      isOkE (emitVarDef d) = true := by
    intro d hd
    simp only [List.mem_singleton, LToken.var.injEq] at hd
    rw [hd]
    rfl
  exact ⟨h, c6_delimiter_amended.1 [LToken.var ⟨"x".data, .assignment, .str (.mk [])⟩] h⟩

/-- Counterexample for C7: `A=${B:5}` emits successfully (and contains
no error-on-unset modifier), yet evaluation against the empty context
fails with a slice panic, not with an unset-variable error: evaluation
failure is not confined to `ErrorOnUnset`. -/
theorem c7_eval_failure_counterexample :
    evalSource trivOracle "A=$\x7bB:5\x7d".data = .error (.eval .panicSlice) ∧
    (emitSource "A=$\x7bB:5\x7d".data).map astHasEU = .ok false := by
  exact ⟨rfl, rfl⟩

/-- C7 (amended): over the tame fragment (no modifier, length, default,
alternative and error-on-unset modifiers; no regex, slicing or case
operations), evaluation of an emitted AST without error-on-unset
modifiers always succeeds, and with them can fail only with
`EvalError::Unset`; concretely, for every regex oracle,
`A=${UNSET:?msg}` fails with `Unset("msg")`, while `:-` on an unset
variable and `:+` on a set one succeed with the modifier's text. -/
theorem c7_eval_failure_amended :
    (∀ (R : RegexOracle) (ast : AAst) (ctx : Ctx), tameAst false ast = true →
      isOkE (evalAst R ctx ast) = true) ∧
    (∀ (R : RegexOracle) (ast : AAst) (ctx : Ctx) (e : EvalErr), tameAst true ast = true →
      evalAst R ctx ast = .error e → ∃ m, e = EvalErr.unset m) ∧
    (∀ R : RegexOracle,
      evalSource R "A=$\x7bUNSET:?msg\x7d".data = .error (.eval (.unset "msg".data)) ∧
      evalSource R "A=$\x7bUNSET:-msg\x7d".data = .ok [("A".data, VV.str "msg".data)] ∧
      evalSource R "SET=x\nB=$\x7bSET:+msg\x7d".data =
        .ok [("SET".data, VV.str "x".data), ("B".data, VV.str "msg".data)]) := by
  refine ⟨?_, ?_, fun R => ⟨rfl, rfl, rfl⟩⟩
  · intro R ast ctx h
    exact tameAst_ok R ast ctx h
  · intro R ast ctx e h he
    exact tameAst_err R ast ctx e h he

/-- Witness for C7 (amended): both tame-fragment conjuncts applied to
one-definition ASTs. -/
theorem c7_eval_failure_amended_witness :
    (tameAst false ([⟨"A".data, AValue.str [AWord.literal "x".data]⟩] : AAst) = true ∧
      isOkE (evalAst trivOracle [] [⟨"A".data, AValue.str [AWord.literal "x".data]⟩]) = true) ∧
    (tameAst true
        ([⟨"A".data, AValue.str [AWord.varRef
          (.mk "B".data (some (.errorOnUnset [AWord.literal "m".data])))]⟩] : AAst) = true ∧
      evalAst trivOracle []
        [⟨"A".data, AValue.str [AWord.varRef
          (.mk "B".data (some (.errorOnUnset [AWord.literal "m".data])))]⟩] =
        .error (.unset "m".data) ∧
      (∃ m, EvalErr.unset "m".data = EvalErr.unset m)) :=
  ⟨⟨rfl, c7_eval_failure_amended.1 trivOracle
      [⟨"A".data, AValue.str [AWord.literal "x".data]⟩] [] rfl⟩,
    ⟨rfl, rfl, c7_eval_failure_amended.2.1 trivOracle
      [⟨"A".data, AValue.str [AWord.varRef
        (.mk "B".data (some (.errorOnUnset [AWord.literal "m".data])))]⟩] []
      (.unset "m".data) rfl rfl⟩⟩

end Apml

namespace Apml

/-- Counterexample for C8: for the negated group `!(*)` the compiled
regex differs between greedy and lazy mode — the inner alternation is
compiled with the caller's greediness flag (`.*` versus `.*?`), so the
output is not independent of the flag. -/
theorem c8_negated_glob_counterexample :
    buildRegexPart true (GlobPart.notOf [[GlobPart.anyString]]) =
      some "(?!(.*)).*".data ∧
    buildRegexPart false (GlobPart.notOf [[GlobPart.anyString]]) =
      some "(?!(.*?)).*".data ∧
    buildRegexPart true (GlobPart.notOf [[GlobPart.anyString]]) ≠
      buildRegexPart false (GlobPart.notOf [[GlobPart.anyString]]) := by
  refine ⟨?_, ?_, ?_⟩
  · simp [buildRegexPart, buildRegexList, buildRegexListInner, buildRegexPattern]
  · simp [buildRegexPart, buildRegexList, buildRegexListInner, buildRegexPattern]
  · simp [buildRegexPart, buildRegexList, buildRegexListInner, buildRegexPattern]

/-- C8 (amended): a negated group `!(list)` compiles to a lookahead
`(?!` ++ inner ++ `).*` where the trailing `.*` never carries a lazy
marker, but the inner alternation is compiled with the caller's
greediness flag `g`, so the whole output depends on `g` whenever the
list's own compilation does (it does not for the literal list `a|b`). -/
theorem c8_negated_glob_amended :
    (∀ (l : List (List GlobPart)) (g : Bool),
      buildRegexPart g (GlobPart.notOf l) =
        (buildRegexList g l).map (fun r => '(' :: '?' :: '!' :: (r ++ [')', '.', '*']))) ∧
    buildRegexPart true (GlobPart.notOf [[GlobPart.str ['a']], [GlobPart.str ['b']]]) =
      buildRegexPart false (GlobPart.notOf [[GlobPart.str ['a']], [GlobPart.str ['b']]]) := by
  refine ⟨?_, by simp [buildRegexPart, buildRegexList, buildRegexListInner,
    buildRegexPattern, regexEscape, regexMeta]⟩
  intro l g
  simp only [buildRegexPart]
  cases h : buildRegexList g l with
  | none => rfl
  | some r => rfl

/-- C9: removing a variable with the editor.  On the source
`a=b # note1\n# note2\n# note3\nb=c\n\n# note4\nc=d`, parsing, locating
`b` and calling `remove_var` deletes the definition of `b` together
with the attached preceding comment block (`# note2`, `# note3`) and
the trailing newline, while the unrelated inline comment `# note1` and
the blank-line-separated `# note4` survive: the source re-serializes to
`a=b # note1\n\n# note4\nc=d`. -/
theorem c9_editor_removal :
    (apmlParse "a=b # note1\n# note2\n# note3\nb=c\n\n# note4\nc=d".data).map
      (fun ts =>
        match findVarIndex ts "b".data with
        | some i => displayLst (removeVar ts i)
        | none => []) = .ok "a=b # note1\n\n# note4\nc=d".data := by
  decide

/-- C10: subcommand expansions are kept verbatim.  Emission turns an
LST subcommand word into an AST subcommand holding exactly the source
text `$(` ++ tokens ++ `)`, evaluation of a subcommand word returns that
text unchanged for every regex oracle and context (no execution, no
error), and within a text it contributes exactly itself to the
concatenation. -/
theorem c10_subcommand_verbatim :
    (∀ toks : List LArrayToken,
      emitWord (LWord.subcommand toks) =
        .ok (AWord.subcommand ('$' :: '(' :: (displayLArrayTokens toks ++ [')'])))) ∧
    (∀ (R : RegexOracle) (ctx : Ctx) (s : Str),
      evalWord R ctx (AWord.subcommand s) = .ok s) ∧
    (∀ (R : RegexOracle) (ctx : Ctx) (s : Str) (ws : AText),
      evalText R ctx (AWord.subcommand s :: ws) =
        (evalText R ctx ws).map (fun rest => s ++ rest)) := by
  refine ⟨fun toks => rfl, fun R ctx s => rfl, ?_⟩
  intro R ctx s ws
  simp only [evalText, evalWord, ebind_ok]
  cases h : evalText R ctx ws with
  | error e => rfl
  | ok rest => rfl

end Apml
